import Mathlib

/-!
# Verification of the SuperBitcoin transaction mempool (`src/mempool/txmempool.h`)

The repository ships only the interface header `txmempool.h` of `CTxMemPool`;
the implementation translation unit is not part of the sources.  Following the
specification (spec.md), we build a shallow embedding of the mempool state and
of the operations named there, and prove the claimed invariants and scenarios
against it.  Definitions whose doc comment starts with `Modelled from the spec:`
embed behaviour whose implementation is absent from the sources and is taken
from the specification's words (and from the doc comments of `txmempool.h`,
which are part of the sources).

Conventions of the embedding:
* txids are natural numbers; a transaction's consumed outpoints are abstracted
  to the list of parent txids appearing in them (`TxData.parents`);
* the entry store `mapTx` is an association list from txid to entry, newest
  entry first (the boost multi_index's hashed index);
* the link graph is derived from the entries: an in-pool parent edge exists
  exactly when the parent txid is resident (spec §3, invariant 2 states the
  maintained link graph always coincides with this derived graph outside of
  reorg windows, and the reorg path is not among the legal operations here);
* fees are `Int` (CAmount), sizes and counts are `Nat`.
-/

set_option maxHeartbeats 1000000
set_option maxRecDepth 4000

namespace SBTC

/-- Static data of a transaction as it enters the pool: fee, virtual size,
signature-operation cost, acceptance time and the txids of the transactions
whose outputs it consumes (spec §3 "Entry", constructor data). -/
structure TxData where
  fee : Int
  vsize : Nat
  sigOps : Nat
  time : Int
  parents : List Nat
  deriving DecidableEq, Repr

/-- A mempool entry: the transaction's static data together with the cached
ancestor/descendant aggregates maintained by the AggregateMaintainer
(spec §3 "Entry", self-aggregates). -/
structure MpEntry where
  fee : Int
  vsize : Nat
  sigOps : Nat
  time : Int
  parents : List Nat
  feeWithDesc : Int
  sizeWithDesc : Nat
  countWithDesc : Nat
  feeWithAnc : Int
  sizeWithAnc : Nat
  countWithAnc : Nat
  sigOpWithAnc : Nat
  deriving DecidableEq, Repr

/-- The mempool state: the entry store (newest first) and the cached total of
all resident virtual sizes (`CTxMemPool::totalTxSize`). -/
structure MemPool where
  mapTx : List (Nat × MpEntry)
  totalTxSize : Nat
  deriving DecidableEq, Repr

/-- The empty pool. -/
def emptyPool : MemPool := { mapTx := [], totalTxSize := 0 }

/-- The resident txids, in store order. -/
def keysL (l : List (Nat × MpEntry)) : List Nat := l.map Prod.fst

/-- Primary lookup by txid (the hashed_unique index of `mapTx`): first entry
with the given txid. -/
def findE : List (Nat × MpEntry) → Nat → Option MpEntry
  | [], _ => none
  | (s, e) :: r, t => if s = t then some e else findE r t

/-- Whether a txid is resident. -/
def residentB (l : List (Nat × MpEntry)) (t : Nat) : Bool := (findE l t).isSome

/-- Sum of a projection of the entries found at the given txids (txids not
resident contribute zero; all uses apply it to lists of resident txids). -/
def sumBy {M : Type} [AddCommMonoid M] (l : List (Nat × MpEntry)) (f : MpEntry → M)
    (ts : List Nat) : M :=
  (ts.map (fun t => match findE l t with | some e => f e | none => 0)).sum

/-- In-pool direct parents of a resident transaction: the resident txids among
the parent txids of its entry (spec §3, GraphNode/invariant 2). -/
def ippL (l : List (Nat × MpEntry)) (x : Nat) : List Nat :=
  match findE l x with
  | some e => e.parents.filter (fun q => residentB l q)
  | none => []

/-- Fuel-bounded reachability along in-pool parent edges: `reachB l n x a`
holds when `a` can be reached from `x` by following between 1 and `n` in-pool
parent edges. -/
def reachB (l : List (Nat × MpEntry)) : Nat → Nat → Nat → Bool
  | 0, _, _ => false
  | n + 1, x, a => (ippL l x).any (fun q => decide (q = a) || reachB l n q a)

/-- `a` is an in-pool ancestor of `x` (spec glossary: a transaction that `x`
directly or transitively depends on, restricted to residents), as a relation. -/
def AncL (l : List (Nat × MpEntry)) (x a : Nat) : Prop :=
  Relation.TransGen (fun u v => v ∈ ippL l u) x a

/-- Decidable in-pool ancestorhood: with fuel equal to the store size the
bounded walk is complete on well-formed stores (`ancB_iff`). -/
def ancB (l : List (Nat × MpEntry)) (x a : Nat) : Bool := reachB l l.length x a

/-- The in-pool ancestors of a resident transaction, in store order. -/
def ancestorListL (l : List (Nat × MpEntry)) (x : Nat) : List Nat :=
  (keysL l).filter (fun a => ancB l x a)

/-- The in-pool descendants of a resident transaction, in store order. -/
def descendantListL (l : List (Nat × MpEntry)) (t : Nat) : List Nat :=
  (keysL l).filter (fun d => ancB l d t)

/-- The in-pool ancestor set of a transaction that is about to be added, given
the parent txids read from its inputs: every resident parent together with all
of its in-pool ancestors (spec §4.B, SearchParents=true). -/
def newTxAncestors (l : List (Nat × MpEntry)) (parents : List Nat) : List Nat :=
  (keysL l).filter (fun a =>
    (parents.filter (fun q => residentB l q)).any (fun q => decide (q = a) || ancB l q a))

/-- Well-formedness of the entry store: txids are unique, no transaction lists
itself as a parent, and no transaction is listed as a parent by an entry that
was added before it (a newly accepted transaction has no in-pool children,
`txmempool.h` lines 41-46).  Consequently parent edges always point from newer
entries (front of the list) to older entries (back of the list). -/
def WFlist : List (Nat × MpEntry) → Prop
  | [] => True
  | (t, e) :: rest =>
      t ∉ keysL rest ∧ t ∉ e.parents ∧ (∀ pr ∈ rest, t ∉ pr.2.parents) ∧ WFlist rest

instance instDecidableWFlist : (l : List (Nat × MpEntry)) → Decidable (WFlist l)
  | [] => .isTrue trivial
  | (t, e) :: rest =>
      have : Decidable (WFlist rest) := instDecidableWFlist rest
      inferInstanceAs (Decidable (_ ∧ _ ∧ _ ∧ _))

/-- The cached aggregates of one entry are exact (spec §3 invariant 3 and §8):
each `WithDescendants` field equals the self quantity plus the sum over all
in-pool descendants, and symmetrically for the `WithAncestors` fields
(including the ancestor sig-op cost; counts include the entry itself). -/
def entryConsistent (l : List (Nat × MpEntry)) (t : Nat) (e : MpEntry) : Prop :=
  e.feeWithDesc = e.fee + sumBy l MpEntry.fee (descendantListL l t)
  ∧ e.sizeWithDesc = e.vsize + sumBy l MpEntry.vsize (descendantListL l t)
  ∧ e.countWithDesc = 1 + (descendantListL l t).length
  ∧ e.feeWithAnc = e.fee + sumBy l MpEntry.fee (ancestorListL l t)
  ∧ e.sizeWithAnc = e.vsize + sumBy l MpEntry.vsize (ancestorListL l t)
  ∧ e.countWithAnc = 1 + (ancestorListL l t).length
  ∧ e.sigOpWithAnc = e.sigOps + sumBy l MpEntry.sigOps (ancestorListL l t)

/-- All resident entries have exact cached aggregates. -/
def Consistent (p : MemPool) : Prop :=
  ∀ pr ∈ p.mapTx, entryConsistent p.mapTx pr.1 pr.2

/-- The cached `totalTxSize` scalar equals the sum of the resident virtual
sizes (spec §3 invariant 5). -/
def totalOK (p : MemPool) : Prop :=
  p.totalTxSize = (p.mapTx.map (fun pr => pr.2.vsize)).sum

instance instDecidableEntryConsistent (l : List (Nat × MpEntry)) (t : Nat) (e : MpEntry) :
    Decidable (entryConsistent l t e) :=
  inferInstanceAs (Decidable (_ ∧ _ ∧ _ ∧ _ ∧ _ ∧ _ ∧ _))

instance instDecidableConsistent (p : MemPool) : Decidable (Consistent p) :=
  inferInstanceAs (Decidable (∀ pr ∈ p.mapTx, entryConsistent p.mapTx pr.1 pr.2))

instance instDecidableTotalOK (p : MemPool) : Decidable (totalOK p) :=
  inferInstanceAs (Decidable (_ = _))

/-- Every structural invariant of a quiescent pool that the development
tracks: store well-formedness, exact aggregates and exact size total. -/
def pGood (p : MemPool) : Prop := WFlist p.mapTx ∧ Consistent p ∧ totalOK p

instance instDecidablePGood (p : MemPool) : Decidable (pGood p) :=
  inferInstanceAs (Decidable (_ ∧ _ ∧ _))

/-- Precondition of `addUnchecked` (txmempool.h lines 41-46 and the
hashed_unique index): the txid is not yet resident, the transaction does not
spend its own outputs, and no resident transaction spends an output of it (a
transaction whose parent is missing would have been an orphan). -/
def addOK (p : MemPool) (t : Nat) (d : TxData) : Prop :=
  findE p.mapTx t = none ∧ t ∉ d.parents ∧ ∀ pr ∈ p.mapTx, t ∉ pr.2.parents

instance instDecidableAddOK (p : MemPool) (t : Nat) (d : TxData) : Decidable (addOK p t d) :=
  inferInstanceAs (Decidable (_ ∧ _ ∧ _))

/-- Fold the new transaction's self quantities into one of its ancestors'
descendant aggregates (spec §4.C On Add, step 3). -/
def bumpDesc (e : MpEntry) (d : TxData) : MpEntry :=
  { e with feeWithDesc := e.feeWithDesc + d.fee
           sizeWithDesc := e.sizeWithDesc + d.vsize
           countWithDesc := e.countWithDesc + 1 }

/-- The entry created for a newly added transaction: self-only descendant
aggregates, ancestor aggregates summed over the computed ancestor set `A`
(spec §4.C On Add, steps 1 and 4). -/
def mkEntry (l : List (Nat × MpEntry)) (d : TxData) (A : List Nat) : MpEntry :=
  { fee := d.fee, vsize := d.vsize, sigOps := d.sigOps, time := d.time
    parents := d.parents
    feeWithDesc := d.fee, sizeWithDesc := d.vsize, countWithDesc := 1
    feeWithAnc := d.fee + sumBy l MpEntry.fee A
    sizeWithAnc := d.vsize + sumBy l MpEntry.vsize A
    countWithAnc := 1 + A.length
    sigOpWithAnc := d.sigOps + sumBy l MpEntry.sigOps A }

/-- Map over the entries while keeping each txid (key-preserving adjustment of
cached aggregates; the shape shared by `addUnchecked`'s ancestor bump and by
`removeStaged`'s unfolding). -/
def adjustEntries (l : List (Nat × MpEntry)) (h : Nat → MpEntry → MpEntry) :
    List (Nat × MpEntry) :=
  l.map (fun pr => (pr.1, h pr.1 pr.2))

/-- The entry store after an add: the new entry in front, and every ancestor's
descendant aggregates bumped by the new transaction's self quantities. -/
def addList (l : List (Nat × MpEntry)) (t : Nat) (d : TxData) : List (Nat × MpEntry) :=
  (t, mkEntry l d (newTxAncestors l d.parents)) ::
    adjustEntries l (fun s e => if s ∈ newTxAncestors l d.parents then bumpDesc e d else e)

/-- Modelled from the spec: the body of `CTxMemPool::addUnchecked` is not in
the repository sources (txmempool.h line 258 declares it).  Per spec §4.C
"On Add": insert the entry with self-only descendant aggregates and ancestor
aggregates summed over the computed in-pool ancestor set, and fold the new
transaction's fee, size and count into the descendant aggregates of every
ancestor.  `totalTxSize` grows by the entry's virtual size. -/
def addUnchecked (p : MemPool) (t : Nat) (d : TxData) : MemPool :=
  { mapTx := addList p.mapTx t d
    totalTxSize := p.totalTxSize + d.vsize }

/-- The net decrement applied to a surviving entry when the staged set `S`
leaves the pool: its descendant aggregates lose the self quantities of every
staged descendant, and (in the removed-for-block mode) its ancestor aggregates
lose the self quantities of every staged ancestor. -/
def decEntry (l : List (Nat × MpEntry)) (S : List Nat) (updateDescendants : Bool)
    (s : Nat) (e : MpEntry) : MpEntry :=
  let dDec := (descendantListL l s).filter (fun x => decide (x ∈ S))
  let aDec := if updateDescendants
    then (ancestorListL l s).filter (fun a => decide (a ∈ S)) else []
  { e with feeWithDesc := e.feeWithDesc - sumBy l MpEntry.fee dDec
           sizeWithDesc := e.sizeWithDesc - sumBy l MpEntry.vsize dDec
           countWithDesc := e.countWithDesc - dDec.length
           feeWithAnc := e.feeWithAnc - sumBy l MpEntry.fee aDec
           sizeWithAnc := e.sizeWithAnc - sumBy l MpEntry.vsize aDec
           countWithAnc := e.countWithAnc - aDec.length
           sigOpWithAnc := e.sigOpWithAnc - sumBy l MpEntry.sigOps aDec }

/-- The entry store after a staged removal: the staged entries are gone and
every survivor carries the net decrement of `decEntry`. -/
def rmList (l : List (Nat × MpEntry)) (S : List Nat) (updateDescendants : Bool) :
    List (Nat × MpEntry) :=
  adjustEntries (l.filter (fun pr => decide (pr.1 ∉ S))) (decEntry l S updateDescendants)

/-- Modelled from the spec: the body of `CTxMemPool::RemoveStaged` (and of the
helpers `UpdateForRemoveFromMempool`, `UpdateAncestorsOf`, `removeUnchecked` it
is documented to use, txmempool.h lines 305, 407, 415, 428) is not in the
repository sources.  Per spec §4.C "On Remove" / "On RemoveForBlock": every
removed entry's self quantities are subtracted from the descendant aggregates
of each of its remaining ancestors; when `updateDescendants` is true (the
removed-for-block case) they are also subtracted from the ancestor aggregates
of each of its remaining descendants; finally the staged entries leave the
store and `totalTxSize` drops by their sizes.  The spec phrases the unfolding
as a loop over the removed set; this definition computes the identical net
decrement of each surviving entry in one pass (for a survivor `s`, the
subtraction it receives is the sum of the self quantities of the staged
entries below it, resp. above it). -/
def removeStaged (p : MemPool) (S : List Nat) (updateDescendants : Bool) : MemPool :=
  { mapTx := rmList p.mapTx S updateDescendants
    totalTxSize := p.totalTxSize
      - sumBy p.mapTx MpEntry.vsize ((keysL p.mapTx).filter (fun s => decide (s ∈ S))) }

/-- A resident transaction together with all of its in-pool descendants: the
unit removed by recursive removal and by eviction (spec glossary "Package"). -/
def packageOf (l : List (Nat × MpEntry)) (t : Nat) : List Nat :=
  (keysL l).filter (fun d => decide (d = t) || ancB l d t)

/-- Modelled from the spec: the body of `CTxMemPool::removeRecursive`
(txmempool.h line 263) is not in the repository sources.  Per spec §5: it
builds the full descendant closure of the given transaction before any
deletion, then removes the staged set. -/
def removeRecursive (p : MemPool) (t : Nat) : MemPool :=
  removeStaged p (packageOf p.mapTx t) false

/-- Modelled from the spec: the body of `CTxMemPool::removeForBlock`
(txmempool.h line 269) is not in the repository sources.  Per spec §4.C "On
RemoveForBlock": the confirmed txids are removed without taking a descendant
closure, and the surviving descendants' ancestor aggregates are reduced by
each departing ancestor's self quantities (`updateDescendants = true`). -/
def removeForBlock (p : MemPool) (vtx : List Nat) : MemPool :=
  removeStaged p vtx true

/-- Whether a resident transaction's acceptance time is older than the cutoff. -/
def isOldB (l : List (Nat × MpEntry)) (cutoff : Int) (x : Nat) : Bool :=
  decide ((match findE l x with | some e => e.time | none => 0) < cutoff)

/-- The set removed by `Expire`: every entry older than the cutoff together
with all of its in-pool descendants (an entry with an expired ancestor is
staged too). -/
def expireStage (l : List (Nat × MpEntry)) (cutoff : Int) : List Nat :=
  (keysL l).filter (fun d =>
    isOldB l cutoff d || (ancestorListL l d).any (fun a => isOldB l cutoff a))

/-- Modelled from the spec: the body of `CTxMemPool::Expire` (txmempool.h line
354) is not in the repository sources.  Per spec §4.D: remove every entry
whose acceptance time is older than the cutoff, together with its descendants. -/
def expire (p : MemPool) (cutoff : Int) : MemPool :=
  removeStaged p (expireStage p.mapTx cutoff) false

/-- Descendant score of an entry: the larger of its own feerate and the
feerate of the entry together with all its descendants (spec §4.A order 1,
"mining-package feerate"); eviction removes the entry whose descendant score
is smallest. -/
def descScore (e : MpEntry) : ℚ :=
  max ((e.fee : ℚ) / (e.vsize : ℚ)) ((e.feeWithDesc : ℚ) / (e.sizeWithDesc : ℚ))

/-- `true` when `a` sorts strictly before `b` at the worst-package end:
smaller descendant score, ties broken by txid. -/
def worseThan (a b : Nat × MpEntry) : Bool :=
  decide (descScore a.2 < descScore b.2)
  || (decide (descScore a.2 = descScore b.2) && decide (a.1 < b.1))

/-- The entry with the smallest descendant score (the eviction victim,
spec §4.D "Eviction unit = package"). -/
def pickVictim : List (Nat × MpEntry) → Option (Nat × MpEntry)
  | [] => none
  | pr :: rest =>
      match pickVictim rest with
      | none => some pr
      | some q => if worseThan pr q then some pr else some q

/-- Modelled from the spec: the body of `CTxMemPool::TrimToSize` (txmempool.h
line 351) is not in the repository sources.  Per spec §4.D: while the pool is
over the limit, evict the package of the entry with the smallest descendant
score.  The size measure of the embedding is `totalTxSize`.  Fuel-bounded
recursion; each round removes at least the victim, so store length is fuel
enough. -/
def trimGo (limit : Nat) : Nat → MemPool → MemPool
  | 0, p => p
  | fuel + 1, p =>
      if p.totalTxSize ≤ limit then p
      else
        match pickVictim p.mapTx with
        | none => p
        | some pr => trimGo limit fuel (removeStaged p (packageOf p.mapTx pr.1) false)

/-- Entry point of eviction (spec §4.D). -/
def TrimToSize (p : MemPool) (limit : Nat) : MemPool :=
  trimGo limit p.mapTx.length p

/-- The staged set contains every in-pool descendant of each of its members
(precondition of `RemoveStaged` with `updateDescendants = false`,
txmempool.h lines 298-304). -/
def DescClosed (l : List (Nat × MpEntry)) (S : List Nat) : Prop :=
  ∀ d ∈ keysL l, ∀ s ∈ S, ancB l d s = true → d ∈ S

/-- The staged set contains every in-pool ancestor of each of its members: the
shape of the resident part of a valid block's transaction list (a block cannot
confirm a child while its in-pool parent stays behind). -/
def AncClosed (l : List (Nat × MpEntry)) (S : List Nat) : Prop :=
  ∀ x ∈ keysL l, x ∈ S → ∀ a ∈ keysL l, ancB l x a = true → a ∈ S

instance instDecidableDescClosed (l : List (Nat × MpEntry)) (S : List Nat) :
    Decidable (DescClosed l S) :=
  inferInstanceAs (Decidable (∀ d ∈ keysL l, ∀ s ∈ S, ancB l d s = true → d ∈ S))

instance instDecidableAncClosed (l : List (Nat × MpEntry)) (S : List Nat) :
    Decidable (AncClosed l S) :=
  inferInstanceAs (Decidable (∀ x ∈ keysL l, x ∈ S → ∀ a ∈ keysL l, ancB l x a = true → a ∈ S))

instance instDecEqExcept {α β : Type} [DecidableEq α] [DecidableEq β] :
    DecidableEq (Except α β) := fun a b =>
  match a, b with
  | Except.ok x, Except.ok y =>
      if h : x = y then Decidable.isTrue (by rw [h])
      else Decidable.isFalse (by intro hc; injection hc; contradiction)
  | Except.ok _, Except.error _ => Decidable.isFalse (fun hc => Except.noConfusion hc)
  | Except.error _, Except.ok _ => Decidable.isFalse (fun hc => Except.noConfusion hc)
  | Except.error x, Except.error y =>
      if h : x = y then Decidable.isTrue (by rw [h])
      else Decidable.isFalse (by intro hc; injection hc; contradiction)

/-- Modelled from the spec: the body of `CTxMemPool::CalculateMemPoolAncestors`
(txmempool.h lines 329-332) is not in the repository sources.  Per spec §4.B
"Bounded ancestor calculation" and the header's doc comment ("these are all
calculated including the tx itself"): the walk fails with a reason string when
the visited count (the ancestors plus the queried transaction) exceeds
`limitAncestorCount`, when the accumulated size (again including the queried
transaction) exceeds `limitAncestorSize`, or when some ancestor's descendant
count or size, counting the queried transaction as a hypothetical new
descendant, exceeds `limitDescendantCount` / `limitDescendantSize`; otherwise
it returns the ancestor set including the queried transaction.  The spec
phrases the limit checks as made during a frontier exploration; whether some
check fires is independent of exploration order, so this definition checks
each limit against the completed closure, in the spec's listed order. -/
def calcAncestors (l : List (Nat × MpEntry)) (t : Nat) (d : TxData)
    (limitAncestorCount limitAncestorSize limitDescendantCount limitDescendantSize : Nat) :
    Except String (List Nat) :=
  let A := newTxAncestors l d.parents
  if A.length + 1 > limitAncestorCount then Except.error "too many unconfirmed ancestors"
  else if d.vsize + sumBy l MpEntry.vsize A > limitAncestorSize then
    Except.error "exceeds ancestor size limit"
  else if A.any (fun a =>
      decide ((match findE l a with | some e => e.countWithDesc | none => 0) + 1 > limitDescendantCount)) then
    Except.error "too many descendants"
  else if A.any (fun a =>
      decide ((match findE l a with | some e => e.sizeWithDesc | none => 0) + d.vsize > limitDescendantSize)) then
    Except.error "exceeds descendant size limit"
  else Except.ok (t :: A)

/-- Modelled from the spec: the limit-checked add path (the second
`addUnchecked` overload driven by `CalculateMemPoolAncestors`, txmempool.h
lines 254-261).  On failure it returns `false` together with the reason string
and the pool exactly as it was (spec §5: beyond the limit the walk returns
failure without partial mutation); on success it performs the add. -/
def addWithLimits (p : MemPool) (t : Nat) (d : TxData)
    (limAncCount limAncSize limDescCount limDescSize : Nat) :
    MemPool × Bool × String :=
  match calcAncestors p.mapTx t d limAncCount limAncSize limDescCount limDescSize with
  | Except.error msg => (p, false, msg)
  | Except.ok _ => (addUnchecked p t d, true, "")

/-- `CTxMemPool::GetTotalTxSize` (txmempool.h lines 365-369): returns the
cached `totalTxSize` scalar. -/
def GetTotalTxSize (p : MemPool) : Nat := p.totalTxSize

/-- Modelled from the spec: the body of
`CTxMemPool::TransactionWithinChainLimit` (txmempool.h lines 356-357) is not in
the repository sources; its header contract is "Returns false if the
transaction is in the mempool and not within the chain limit specified".  A
transaction that is not resident is vacuously within every chain limit; a
resident one is within the limit when both its ancestor chain and its
descendant chain (counts including itself) stay below it. -/
def TransactionWithinChainLimit (p : MemPool) (txid : Nat) (chainLimit : Nat) : Bool :=
  match findE p.mapTx txid with
  | none => true
  | some e => decide (e.countWithAnc < chainLimit) && decide (e.countWithDesc < chainLimit)

/-- `CTxMemPool::ROLLING_FEE_HALFLIFE` (txmempool.h line 108). -/
def ROLLING_FEE_HALFLIFE : Nat := 60 * 60 * 12

/-- The spec's decay factor applied to the rolling minimum fee rate,
represented exactly at whole half-life multiples: after `k` half-lives
(`Δt = k · ROLLING_FEE_HALFLIFE` seconds) the rate `r` has decayed to
`r · 2^(-Δt / HALFLIFE) = r / 2^k`. -/
def decayedRate (r : ℚ) (k : Nat) : ℚ := r / 2 ^ k

/-- Modelled from the spec: the body of `CTxMemPool::GetMinFee` (txmempool.h
lines 339-345) is not in the repository sources.  Per spec §4.D: the rolling
minimum fee rate decays exponentially with half-life `ROLLING_FEE_HALFLIFE`
seconds, and snaps to zero once the decayed value drops below half of the
incremental relay fee.  Time is measured in elapsed half-lives `k`, at which
points the spec's real-exponent decay factor is exact. -/
def getMinFee (r : ℚ) (k : Nat) (incRelay : ℚ) : ℚ :=
  if decayedRate r k < incRelay / 2 then 0 else decayedRate r k

/-- A transaction's own feerate: fee divided by virtual size (spec glossary). -/
def feerate (e : MpEntry) : ℚ := (e.fee : ℚ) / (e.vsize : ℚ)

/-- Modelled from the spec: the comparator key of the ancestor-score order
(`CompareTxMemPoolEntryByAncestorFee`, whose definition lives in the absent
`mempooldef.h`): `min(fee/vsize, feeWithAncestors/sizeWithAncestors)`
(spec §4.A order 4). -/
def ancScoreKey (e : MpEntry) : ℚ :=
  min (feerate e) ((e.feeWithAnc : ℚ) / (e.sizeWithAnc : ℚ))

/-- Modelled from the spec: the comparator key of the mining-score order
(`CompareTxMemPoolEntryByScore`): the effective feerate including the
transaction's PriorityDelta `δ` (spec §4.A order 3). -/
def miningScoreKey (δ : Nat → Int) (t : Nat) (e : MpEntry) : ℚ :=
  ((e.fee + δ t : Int) : ℚ) / (e.vsize : ℚ)

/-- Modelled from the spec: the comparator key of the fifth order
(`CompareTxMemPoolEntryByAncestorFeeOrGasPrice`): contract transactions are
ranked by their declared gas price, all others by the ancestor score
(spec §4.A order 5; "is-contract" and the gas price are opaque parameters
supplied by the contract layer). -/
def gasKey (isContract : Nat → Bool) (gasPrice : Nat → ℚ) (t : Nat) (e : MpEntry) : ℚ :=
  if isContract t then gasPrice t else ancScoreKey e

/-- The non-strict comparison used by an ordered index whose comparator key is
`key`: smaller key first, ties broken by txid (spec §4.A). -/
def keyLex {K : Type} [LinearOrder K] (key : Nat → MpEntry → K)
    (a b : Nat × MpEntry) : Prop :=
  key a.1 a.2 < key b.1 b.2 ∨ (key a.1 a.2 = key b.1 b.2 ∧ a.1 ≤ b.1)

instance instDecKeyLex {K : Type} [LinearOrder K] (key : Nat → MpEntry → K) :
    DecidableRel (keyLex key) :=
  fun a b => inferInstanceAs (Decidable (_ ∨ _))

instance instTotalKeyLex {K : Type} [LinearOrder K] (key : Nat → MpEntry → K) :
    IsTotal (Nat × MpEntry) (keyLex key) where
  total a b := by
    rcases lt_trichotomy (key a.1 a.2) (key b.1 b.2) with h | h | h
    · exact Or.inl (Or.inl h)
    · rcases Nat.le_total a.1 b.1 with h2 | h2
      · exact Or.inl (Or.inr ⟨h, h2⟩)
      · exact Or.inr (Or.inr ⟨h.symm, h2⟩)
    · exact Or.inr (Or.inl h)

instance instTransKeyLex {K : Type} [LinearOrder K] (key : Nat → MpEntry → K) :
    IsTrans (Nat × MpEntry) (keyLex key) where
  trans a b c hab hbc := by
    rcases hab with h1 | ⟨h1, h1t⟩
    · rcases hbc with h2 | ⟨h2, _⟩
      · exact Or.inl (h1.trans h2)
      · exact Or.inl (h2 ▸ h1)
    · rcases hbc with h2 | ⟨h2, h2t⟩
      · exact Or.inl (h1 ▸ h2)
      · exact Or.inr ⟨h1.trans h2, h1t.trans h2t⟩

/-- A live ordered view of the entry store under a comparator key: the entries
sorted by the key with ties broken by txid.  Because every view is a function
of the current store, a mutation of any field participating in an order
re-indexes the entry in that order by construction. -/
def sortedView {K : Type} [LinearOrder K] (key : Nat → MpEntry → K)
    (l : List (Nat × MpEntry)) : List (Nat × MpEntry) :=
  List.insertionSort (keyLex key) l

/-- Order 1 of spec §4.A: descendant score. -/
def viewDescendantScore (l : List (Nat × MpEntry)) : List (Nat × MpEntry) :=
  sortedView (fun _ e => descScore e) l

/-- Order 2 of spec §4.A: acceptance time. -/
def viewEntryTime (l : List (Nat × MpEntry)) : List (Nat × MpEntry) :=
  sortedView (fun _ e => e.time) l

/-- Order 3 of spec §4.A: mining score (effective feerate with PriorityDelta). -/
def viewMiningScore (δ : Nat → Int) (l : List (Nat × MpEntry)) : List (Nat × MpEntry) :=
  sortedView (miningScoreKey δ) l

/-- Order 4 of spec §4.A: ancestor score. -/
def viewAncestorScore (l : List (Nat × MpEntry)) : List (Nat × MpEntry) :=
  sortedView (fun _ e => ancScoreKey e) l

/-- Order 5 of spec §4.A: ancestor score, or gas price for contract
transactions. -/
def viewAncScoreOrGas (isContract : Nat → Bool) (gasPrice : Nat → ℚ)
    (l : List (Nat × MpEntry)) : List (Nat × MpEntry) :=
  sortedView (gasKey isContract gasPrice) l

/-- The strict mining-score order: by effective feerate, ties broken by txid.
On entries with distinct txids this is a strict total order, which is what
makes the `ordered_unique` mining index of `indexed_transaction_set` admit
every resident entry exactly once. -/
def miningLt (δ : Nat → Int) (a b : Nat × MpEntry) : Prop :=
  miningScoreKey δ a.1 a.2 < miningScoreKey δ b.1 b.2
  ∨ (miningScoreKey δ a.1 a.2 = miningScoreKey δ b.1 b.2 ∧ a.1 < b.1)

/-- The chain transaction with index `i`: tx `0` has no parents, tx `i + 1`
spends an output of tx `i`. -/
def chainData (fee : Nat → Int) (vs : Nat → Nat) (so : Nat → Nat) (tm : Nat → Int)
    (i : Nat) : TxData :=
  { fee := fee i, vsize := vs i, sigOps := so i, time := tm i
    parents := match i with | 0 => [] | j + 1 => [j] }

/-- The pool holding the chain `0 → 1 → ⋯ → n-1`, built by adding the
transactions in order. -/
def chainPool (fee : Nat → Int) (vs : Nat → Nat) (so : Nat → Nat) (tm : Nat → Int) :
    Nat → MemPool
  | 0 => emptyPool
  | n + 1 => addUnchecked (chainPool fee vs so tm n) n (chainData fee vs so tm n)

/-- The pool states reachable by the legal mempool operations: the empty pool,
`addUnchecked` of a fresh non-orphan transaction, `removeRecursive`,
`removeForBlock` of (the resident part of) a valid block — whose resident
staged set is closed under in-pool ancestors, since a block cannot confirm a
child while its parent stays unconfirmed —, `RemoveStaged` under its
documented precondition (descendant-closed stage, or the removed-in-block mode
with an ancestor-closed stage), `TrimToSize` and `Expire`. -/
inductive Reachable : MemPool → Prop where
  | empty : Reachable emptyPool
  | add {p t d} : Reachable p → addOK p t d → Reachable (addUnchecked p t d)
  | removeRec {p t} : Reachable p → Reachable (removeRecursive p t)
  | removeBlk {p vtx} : Reachable p → AncClosed p.mapTx vtx →
      Reachable (removeForBlock p vtx)
  | removeStg {p S uD} : Reachable p →
      ((uD = false ∧ DescClosed p.mapTx S) ∨ (uD = true ∧ AncClosed p.mapTx S)) →
      Reachable (removeStaged p S uD)
  | trim {p limit} : Reachable p → Reachable (TrimToSize p limit)
  | expireOp {p cutoff} : Reachable p → Reachable (expire p cutoff)

/-- Concrete parameters used by witness instantiations: a uniform chain with
fee 1, virtual size 1, no sig-ops, entry time 0. -/
def wFee : Nat → Int := fun _ => 1

def wVs : Nat → Nat := fun _ => 1

def wSo : Nat → Nat := fun _ => 0

def wTm : Nat → Int := fun _ => 0

/-- The witness chain pool of length `n`. -/
def wPool (n : Nat) : MemPool := chainPool wFee wVs wSo wTm n

/-- A concrete standalone transaction used by witness instantiations. -/
def wData : TxData := { fee := 7, vsize := 3, sigOps := 1, time := 9, parents := [1] }

/-- A concrete entry used to exhibit comparator ties. -/
def witEntry : MpEntry :=
  { fee := 1, vsize := 1, sigOps := 0, time := 0, parents := []
    feeWithDesc := 1, sizeWithDesc := 1, countWithDesc := 1
    feeWithAnc := 1, sizeWithAnc := 1, countWithAnc := 1, sigOpWithAnc := 0 }

/-! ## Basic lemmas about the entry store -/

theorem findE_cons (s : Nat) (e : MpEntry) (r : List (Nat × MpEntry)) (t : Nat) :
    findE ((s, e) :: r) t = if s = t then some e else findE r t := rfl

theorem keysL_cons (pr : Nat × MpEntry) (l : List (Nat × MpEntry)) :
    keysL (pr :: l) = pr.1 :: keysL l := rfl

theorem findE_eq_none {l : List (Nat × MpEntry)} {t : Nat} :
    findE l t = none ↔ t ∉ keysL l := by
  induction l with
  | nil => simp [findE, keysL]
  | cons pr r ih =>
      obtain ⟨s, e⟩ := pr
      by_cases h : s = t
      · subst h; simp [findE, keysL_cons]
      · rw [keysL_cons]
        simp only [findE, h, if_false, ih, List.mem_cons]
        constructor
        · intro hn hc
          rcases hc with hc | hc
          · exact h hc.symm
          · exact hn hc
        · intro hn hc
          exact hn (Or.inr hc)

theorem residentB_iff_mem {l : List (Nat × MpEntry)} {q : Nat} :
    residentB l q = true ↔ q ∈ keysL l := by
  rw [residentB, Option.isSome_iff_ne_none]
  constructor
  · intro h
    by_contra hmem
    exact h (findE_eq_none.mpr hmem)
  · intro h hnone
    exact findE_eq_none.mp hnone h

theorem findE_mem {l : List (Nat × MpEntry)} {t : Nat} {e : MpEntry}
    (h : findE l t = some e) : (t, e) ∈ l := by
  induction l with
  | nil => simp [findE] at h
  | cons pr r ih =>
      obtain ⟨s, e'⟩ := pr
      by_cases hs : s = t
      · subst hs
        simp [findE] at h
        simp [h]
      · simp [findE, hs] at h
        simp [ih h]

theorem mem_keysL_of_mem {l : List (Nat × MpEntry)} {pr : Nat × MpEntry}
    (h : pr ∈ l) : pr.1 ∈ keysL l := List.mem_map_of_mem Prod.fst h

theorem findE_of_mem_nodup {l : List (Nat × MpEntry)} {t : Nat} {e : MpEntry}
    (hnd : (keysL l).Nodup) (h : (t, e) ∈ l) : findE l t = some e := by
  induction l with
  | nil => simp at h
  | cons pr r ih =>
      obtain ⟨s, e'⟩ := pr
      rw [keysL_cons] at hnd
      rcases List.mem_cons.mp h with heq | hmem
      · injection heq with h1 h2
        subst h1; subst h2
        simp [findE]
      · have hts : t ∈ keysL r := mem_keysL_of_mem hmem
        have hst : s ≠ t := by
          intro hEq
          rw [hEq] at hnd
          exact (List.nodup_cons.mp hnd).1 hts
        simp [findE, hst, ih (List.nodup_cons.mp hnd).2 hmem]

theorem WFlist_nil : WFlist [] := trivial

theorem WFlist_cons {t : Nat} {e : MpEntry} {rest : List (Nat × MpEntry)} :
    WFlist ((t, e) :: rest) ↔
      t ∉ keysL rest ∧ t ∉ e.parents ∧ (∀ pr ∈ rest, t ∉ pr.2.parents) ∧ WFlist rest :=
  Iff.rfl

theorem WFlist.nodupKeys {l : List (Nat × MpEntry)} (h : WFlist l) : (keysL l).Nodup := by
  induction l with
  | nil => simp [keysL]
  | cons pr r ih =>
      obtain ⟨s, e⟩ := pr
      rw [WFlist_cons] at h
      rw [keysL_cons]
      exact List.nodup_cons.mpr ⟨h.1, ih h.2.2.2⟩

theorem sumBy_nil {M : Type} [AddCommMonoid M] (l : List (Nat × MpEntry)) (f : MpEntry → M) :
    sumBy l f [] = 0 := rfl

theorem sumBy_cons {M : Type} [AddCommMonoid M] (l : List (Nat × MpEntry)) (f : MpEntry → M)
    (t : Nat) (ts : List Nat) :
    sumBy l f (t :: ts) =
      (match findE l t with | some e => f e | none => 0) + sumBy l f ts := by
  simp [sumBy]

theorem sumBy_congr {M : Type} [AddCommMonoid M] {l₁ l₂ : List (Nat × MpEntry)}
    {f : MpEntry → M} {ts : List Nat}
    (h : ∀ t ∈ ts, (match findE l₁ t with | some e => f e | none => 0)
        = (match findE l₂ t with | some e => f e | none => 0)) :
    sumBy l₁ f ts = sumBy l₂ f ts := by
  induction ts with
  | nil => rfl
  | cons t ts ih =>
      rw [sumBy_cons, sumBy_cons, h t (List.mem_cons_self t ts),
        ih (fun u hu => h u (List.mem_cons_of_mem t hu))]

theorem list_sum_map_filter_split {α M : Type} [AddCommMonoid M] (g : α → M) (p : α → Bool) :
    ∀ L : List α, (L.map g).sum
      = ((L.filter p).map g).sum + ((L.filter (fun x => !(p x))).map g).sum := by
  intro L
  induction L with
  | nil => simp
  | cons a L ih =>
      cases hp : p a <;> simp [List.filter_cons, hp, ih] <;> abel

theorem list_length_filter_split {α : Type} (p : α → Bool) (L : List α) :
    L.length = (L.filter p).length + (L.filter (fun x => !(p x))).length := by
  induction L with
  | nil => simp
  | cons a L ih =>
      cases hp : p a <;> simp [List.filter_cons, hp, ih] <;> omega

theorem list_any_congr {α : Type} {p q : α → Bool} :
    ∀ {L : List α}, (∀ x ∈ L, p x = q x) → L.any p = L.any q := by
  intro L
  induction L with
  | nil => intro _; rfl
  | cons a L ih =>
      intro h
      simp only [List.any_cons, h a (List.mem_cons_self a L),
        ih (fun x hx => h x (List.mem_cons_of_mem a hx))]

theorem keysL_filter (f : Nat → Bool) (l : List (Nat × MpEntry)) :
    keysL (l.filter (fun pr => f pr.1)) = (keysL l).filter f := by
  induction l with
  | nil => rfl
  | cons pr r ih =>
      cases hf : f pr.1
      · simp [keysL_cons, List.filter_cons, hf, ih]
      · simp [keysL_cons, List.filter_cons, hf, ih]

theorem keysL_adjust (l : List (Nat × MpEntry)) (h : Nat → MpEntry → MpEntry) :
    keysL (adjustEntries l h) = keysL l := by
  induction l with
  | nil => rfl
  | cons pr r ih =>
      simp only [adjustEntries, List.map_cons, keysL_cons]
      simp only [adjustEntries] at ih
      exact congrArg (fun xs => pr.1 :: xs) ih

theorem findE_adjust (l : List (Nat × MpEntry)) (h : Nat → MpEntry → MpEntry) (t : Nat) :
    findE (adjustEntries l h) t = (findE l t).map (h t) := by
  induction l with
  | nil => rfl
  | cons pr r ih =>
      obtain ⟨s, e⟩ := pr
      by_cases hs : s = t
      · subst hs; simp [adjustEntries, findE]
      · simp only [adjustEntries, List.map_cons, findE, hs, if_false] at ih ⊢
        exact ih

theorem mem_adjust {l : List (Nat × MpEntry)} {h : Nat → MpEntry → MpEntry}
    {t : Nat} {e : MpEntry} :
    (t, e) ∈ adjustEntries l h ↔ ∃ e₀, (t, e₀) ∈ l ∧ e = h t e₀ := by
  constructor
  · intro hm
    obtain ⟨q, hq, hEq⟩ := List.mem_map.mp hm
    obtain ⟨qt, qe⟩ := q
    injection hEq with h1 h2
    subst h1
    exact ⟨qe, hq, h2.symm⟩
  · rintro ⟨e₀, hmem, rfl⟩
    exact List.mem_map.mpr ⟨(t, e₀), hmem, rfl⟩

theorem residentB_adjust (l : List (Nat × MpEntry)) (h : Nat → MpEntry → MpEntry) (q : Nat) :
    residentB (adjustEntries l h) q = residentB l q := by
  rw [residentB, residentB, findE_adjust]
  cases findE l q <;> rfl

theorem findE_filter_not_mem {l : List (Nat × MpEntry)} {S : List Nat} {t : Nat}
    (h : t ∉ S) :
    findE (l.filter (fun pr => decide (pr.1 ∉ S))) t = findE l t := by
  induction l with
  | nil => rfl
  | cons pr r ih =>
      obtain ⟨s, e⟩ := pr
      by_cases hs : s = t
      · subst hs
        rw [List.filter_cons, if_pos (by simpa using h)]
        simp [findE]
      · by_cases hS : s ∈ S
        · rw [List.filter_cons, if_neg (by simpa using hS), ih, findE_cons, if_neg hs]
        · rw [List.filter_cons, if_pos (by simpa using hS), findE_cons, findE_cons,
            if_neg hs, if_neg hs]
          exact ih

theorem findE_filter_mem {l : List (Nat × MpEntry)} {S : List Nat} {t : Nat}
    (h : t ∈ S) :
    findE (l.filter (fun pr => decide (pr.1 ∉ S))) t = none := by
  rw [findE_eq_none]
  intro hmem
  simp only [keysL] at hmem
  obtain ⟨pr, hpr, hfst⟩ := List.mem_map.mp hmem
  have hf := List.of_mem_filter hpr
  rw [hfst] at hf
  simp at hf
  exact hf h

/-! ## Lemmas about the derived link graph and ancestorhood -/

theorem mem_ippL {l : List (Nat × MpEntry)} {x q : Nat} :
    q ∈ ippL l x ↔ ∃ e, findE l x = some e ∧ q ∈ e.parents ∧ residentB l q = true := by
  cases h : findE l x with
  | none => simp [ippL, h]
  | some e => simp [ippL, h, List.mem_filter]

theorem ippL_subset_keys {l : List (Nat × MpEntry)} {x q : Nat} (h : q ∈ ippL l x) :
    q ∈ keysL l := by
  obtain ⟨e, _, _, hres⟩ := mem_ippL.mp h
  exact residentB_iff_mem.mp hres

theorem ancL_head_cases {l : List (Nat × MpEntry)} {x a : Nat} (h : AncL l x a) :
    ∃ q ∈ ippL l x, q = a ∨ AncL l q a := by
  induction h with
  | single h1 => exact ⟨_, h1, Or.inl rfl⟩
  | tail hxb hba ih =>
      obtain ⟨q, hq, hcase⟩ := ih
      rcases hcase with rfl | hQ
      · exact ⟨q, hq, Or.inr (Relation.TransGen.single hba)⟩
      · exact ⟨q, hq, Or.inr (Relation.TransGen.tail hQ hba)⟩

theorem ancL_tail_cases {l : List (Nat × MpEntry)} {x a : Nat} (h : AncL l x a) :
    ∃ u, (u = x ∨ AncL l x u) ∧ a ∈ ippL l u := by
  induction h with
  | single h1 => exact ⟨x, Or.inl rfl, h1⟩
  | tail hxb hba _ => exact ⟨_, Or.inr hxb, hba⟩

theorem ancL_source_mem {l : List (Nat × MpEntry)} {x a : Nat} (h : AncL l x a) :
    x ∈ keysL l := by
  obtain ⟨q, hq, _⟩ := ancL_head_cases h
  obtain ⟨e, hfind, _, _⟩ := mem_ippL.mp hq
  exact residentB_iff_mem.mp (by rw [residentB, hfind]; rfl)

theorem ancL_target_mem {l : List (Nat × MpEntry)} {x a : Nat} (h : AncL l x a) :
    a ∈ keysL l := by
  obtain ⟨u, _, ha⟩ := ancL_tail_cases h
  exact ippL_subset_keys ha

theorem ancL_trans {l : List (Nat × MpEntry)} {x y z : Nat}
    (h1 : AncL l x y) (h2 : AncL l y z) : AncL l x z :=
  Relation.TransGen.trans h1 h2

theorem ancL_mono {l₁ l₂ : List (Nat × MpEntry)}
    (hsub : ∀ x q, q ∈ ippL l₁ x → q ∈ ippL l₂ x) {x a : Nat}
    (h : AncL l₁ x a) : AncL l₂ x a :=
  Relation.TransGen.mono (fun u v hv => hsub u v hv) h

theorem ancL_congr {l₁ l₂ : List (Nat × MpEntry)}
    (hagree : ∀ x, ippL l₁ x = ippL l₂ x) {x a : Nat} :
    AncL l₁ x a ↔ AncL l₂ x a :=
  ⟨ancL_mono (fun y q hq => (hagree y) ▸ hq), ancL_mono (fun y q hq => (hagree y).symm ▸ hq)⟩

theorem reachB_congr {l₁ l₂ : List (Nat × MpEntry)}
    (hagree : ∀ x, ippL l₁ x = ippL l₂ x) :
    ∀ (n : Nat) (x a : Nat), reachB l₁ n x a = reachB l₂ n x a := by
  intro n
  induction n with
  | zero => intro x a; rfl
  | succ n ih =>
      intro x a
      simp only [reachB]
      rw [hagree x]
      exact list_any_congr (fun q _ => by rw [ih q a])

/-- One-directional transfer of ancestorhood between two stores whose derived
graphs agree away from a barrier vertex `T` that no edge of the target store
enters. -/
theorem ancL_barrier {l₁ l₂ : List (Nat × MpEntry)} {T : Nat}
    (hagree : ∀ x, x ≠ T → ippL l₁ x = ippL l₂ x)
    (hbar : ∀ x q, q ∈ ippL l₂ x → q ≠ T) {x a : Nat}
    (hx : x ≠ T) (h : AncL l₁ x a) : AncL l₂ x a := by
  refine Relation.TransGen.head_induction_on
    (P := fun y _ => y ≠ T → AncL l₂ y a) h ?_ ?_ hx
  · intro y hy hyT
    exact Relation.TransGen.single ((hagree y hyT) ▸ hy)
  · intro y c hyc hca ih hyT
    have hc2 : c ∈ ippL l₂ y := (hagree y hyT) ▸ hyc
    exact Relation.TransGen.head hc2 (ih (hbar y c hc2))

/-- Bool-level version of `ancL_barrier`, with the barrier kept out of the
source store's edges. -/
theorem reachB_barrier {l₁ l₂ : List (Nat × MpEntry)} {T : Nat}
    (hagree : ∀ x, x ≠ T → ippL l₁ x = ippL l₂ x)
    (hbar : ∀ x q, q ∈ ippL l₁ x → q ≠ T) :
    ∀ (n : Nat) {x a : Nat}, x ≠ T → reachB l₁ n x a = reachB l₂ n x a := by
  intro n
  induction n with
  | zero => intro x a _; rfl
  | succ n ih =>
      intro x a hx
      simp only [reachB]
      rw [hagree x hx]
      refine list_any_congr (fun q hq => ?_)
      have hqT : q ≠ T := hbar x q ((hagree x hx).symm ▸ hq)
      rw [ih hqT]

theorem reachB_succ {l : List (Nat × MpEntry)} :
    ∀ {n x a}, reachB l n x a = true → reachB l (n + 1) x a = true := by
  intro n
  induction n with
  | zero => intro x a h; exact absurd h (by simp [reachB])
  | succ n ih =>
      intro x a h
      simp only [reachB, List.any_eq_true] at h ⊢
      obtain ⟨q, hq, hcase⟩ := h
      refine ⟨q, hq, ?_⟩
      rcases Bool.or_eq_true_iff.mp hcase with h1 | h2
      · exact Bool.or_eq_true_iff.mpr (Or.inl h1)
      · exact Bool.or_eq_true_iff.mpr (Or.inr (ih h2))

theorem reachB_le {l : List (Nat × MpEntry)} {n m : Nat} (hnm : n ≤ m) :
    ∀ {x a}, reachB l n x a = true → reachB l m x a = true := by
  induction hnm with
  | refl => exact fun h => h
  | step _ ih => exact fun h => reachB_succ (ih h)

theorem reachB_sound {l : List (Nat × MpEntry)} :
    ∀ {n x a}, reachB l n x a = true → AncL l x a := by
  intro n
  induction n with
  | zero => intro x a h; exact absurd h (by simp [reachB])
  | succ n ih =>
      intro x a h
      simp only [reachB, List.any_eq_true] at h
      obtain ⟨q, hq, hcase⟩ := h
      rcases Bool.or_eq_true_iff.mp hcase with h1 | h2
      · have : q = a := of_decide_eq_true h1
        exact this ▸ Relation.TransGen.single hq
      · exact Relation.TransGen.head hq (ih h2)

theorem ippL_cons_ne {t : Nat} {e : MpEntry} {rest : List (Nat × MpEntry)} {x : Nat}
    (hW : WFlist ((t, e) :: rest)) (hx : x ≠ t) :
    ippL ((t, e) :: rest) x = ippL rest x := by
  have hfind : findE ((t, e) :: rest) x = findE rest x := by
    rw [findE_cons, if_neg (fun h => hx h.symm)]
  cases h : findE rest x with
  | none => simp [ippL, hfind, h]
  | some ex =>
      simp only [ippL, hfind, h]
      refine List.filter_congr (fun q hq => ?_)
      have hqt : q ≠ t := by
        intro hEq
        have hmem := findE_mem h
        exact (WFlist_cons.mp hW).2.2.1 (x, ex) hmem (hEq ▸ hq)
      rw [residentB, residentB, findE_cons, if_neg (fun h2 => hqt h2.symm)]

theorem mem_ippL_rest_ne {t : Nat} {e : MpEntry} {rest : List (Nat × MpEntry)} {x q : Nat}
    (hW : WFlist ((t, e) :: rest)) (hq : q ∈ ippL rest x) : q ≠ t := by
  intro hEq
  exact (WFlist_cons.mp hW).1 (hEq ▸ ippL_subset_keys hq)

theorem mem_ippL_cons_ne {t : Nat} {e : MpEntry} {rest : List (Nat × MpEntry)} {x q : Nat}
    (hW : WFlist ((t, e) :: rest)) (hq : q ∈ ippL ((t, e) :: rest) x) : q ≠ t := by
  by_cases hx : x = t
  · subst hx
    obtain ⟨e', hfind, hpar, _⟩ := mem_ippL.mp hq
    rw [findE_cons, if_pos rfl] at hfind
    injection hfind with hfind
    subst hfind
    intro hEq
    exact (WFlist_cons.mp hW).2.1 (hEq ▸ hpar)
  · rw [ippL_cons_ne hW hx] at hq
    exact mem_ippL_rest_ne hW hq

theorem ancL_cons_iff {t : Nat} {e : MpEntry} {rest : List (Nat × MpEntry)} {x a : Nat}
    (hW : WFlist ((t, e) :: rest)) (hx : x ≠ t) :
    AncL ((t, e) :: rest) x a ↔ AncL rest x a := by
  constructor
  · exact ancL_barrier (fun y hy => ippL_cons_ne hW hy)
      (fun y q hq => mem_ippL_rest_ne hW hq) hx
  · exact ancL_barrier (fun y hy => (ippL_cons_ne hW hy).symm)
      (fun y q hq => mem_ippL_cons_ne hW hq) hx

theorem reachB_cons_eq {t : Nat} {e : MpEntry} {rest : List (Nat × MpEntry)}
    (hW : WFlist ((t, e) :: rest)) {n x a : Nat} (hx : x ≠ t) :
    reachB rest n x a = reachB ((t, e) :: rest) n x a :=
  reachB_barrier (fun y hy => (ippL_cons_ne hW hy).symm)
    (fun y q hq => mem_ippL_rest_ne hW hq) n hx

theorem reachB_complete {l : List (Nat × MpEntry)} (hW : WFlist l) {x a : Nat}
    (h : AncL l x a) : reachB l l.length x a = true := by
  induction l generalizing x a with
  | nil =>
      obtain ⟨q, hq, _⟩ := ancL_head_cases h
      simp [ippL, findE] at hq
  | cons pr rest ih =>
      obtain ⟨t, e⟩ := pr
      by_cases hx : x = t
      · subst hx
        obtain ⟨q, hq, hcase⟩ := ancL_head_cases h
        have hqt : q ≠ x := mem_ippL_cons_ne hW hq
        show reachB ((x, e) :: rest) (rest.length + 1) x a = true
        simp only [reachB, List.any_eq_true]
        refine ⟨q, hq, ?_⟩
        rcases hcase with rfl | hQ
        · simp
        · have hQr : AncL rest q a := (ancL_cons_iff hW hqt).mp hQ
          have hr : reachB rest rest.length q a = true :=
            ih (WFlist_cons.mp hW).2.2.2 hQr
          rw [reachB_cons_eq hW hqt] at hr
          simp [hr]
      · have hrest : AncL rest x a := (ancL_cons_iff hW hx).mp h
        have hr := ih (WFlist_cons.mp hW).2.2.2 hrest
        rw [reachB_cons_eq hW hx] at hr
        exact reachB_le (Nat.le_succ _) hr

theorem ancB_iff {l : List (Nat × MpEntry)} (hW : WFlist l) {x a : Nat} :
    ancB l x a = true ↔ AncL l x a :=
  ⟨reachB_sound, fun h => reachB_complete hW h⟩

theorem ancB_eq_false {l : List (Nat × MpEntry)} {x a : Nat}
    (h : ¬ AncL l x a) : ancB l x a = false := by
  cases hb : ancB l x a
  · rfl
  · exact absurd (reachB_sound hb) h

theorem ancL_irrefl {l : List (Nat × MpEntry)} (hW : WFlist l) {x : Nat} :
    ¬ AncL l x x := by
  induction l generalizing x with
  | nil =>
      intro h
      obtain ⟨q, hq, _⟩ := ancL_head_cases h
      simp [ippL, findE] at hq
  | cons pr rest ih =>
      obtain ⟨t, e⟩ := pr
      intro h
      by_cases hx : x = t
      · subst hx
        obtain ⟨q, hq, hcase⟩ := ancL_head_cases h
        have hqt : q ≠ x := mem_ippL_cons_ne hW hq
        rcases hcase with rfl | hQ
        · exact hqt rfl
        · have hQr : AncL rest q x := (ancL_cons_iff hW hqt).mp hQ
          exact (WFlist_cons.mp hW).1 (ancL_target_mem hQr)
      · exact ih (WFlist_cons.mp hW).2.2.2 ((ancL_cons_iff hW hx).mp h)

/-! ## The graph is invariant under aggregate adjustment, and shrinks
predictably under staged removal -/

theorem length_adjust (l : List (Nat × MpEntry)) (h : Nat → MpEntry → MpEntry) :
    (adjustEntries l h).length = l.length := List.length_map _ _

theorem ippL_adjust {l : List (Nat × MpEntry)} {h : Nat → MpEntry → MpEntry}
    (hpar : ∀ s e, (h s e).parents = e.parents) (x : Nat) :
    ippL (adjustEntries l h) x = ippL l x := by
  rw [ippL, ippL, findE_adjust]
  cases hf : findE l x with
  | none => rfl
  | some e =>
      show ((h x e).parents.filter (fun q => residentB (adjustEntries l h) q))
        = e.parents.filter (fun q => residentB l q)
      rw [hpar]
      exact List.filter_congr (fun q _ => residentB_adjust l h q)

theorem ancL_adjust {l : List (Nat × MpEntry)} {h : Nat → MpEntry → MpEntry}
    (hpar : ∀ s e, (h s e).parents = e.parents) {x a : Nat} :
    AncL (adjustEntries l h) x a ↔ AncL l x a :=
  ancL_congr (ippL_adjust hpar)

theorem ancB_adjust {l : List (Nat × MpEntry)} {h : Nat → MpEntry → MpEntry}
    (hpar : ∀ s e, (h s e).parents = e.parents) (x a : Nat) :
    ancB (adjustEntries l h) x a = ancB l x a := by
  rw [ancB, ancB, length_adjust]
  exact reachB_congr (ippL_adjust hpar) _ x a

theorem descendantListL_adjust {l : List (Nat × MpEntry)} {h : Nat → MpEntry → MpEntry}
    (hpar : ∀ s e, (h s e).parents = e.parents) (t : Nat) :
    descendantListL (adjustEntries l h) t = descendantListL l t := by
  rw [descendantListL, descendantListL, keysL_adjust]
  exact List.filter_congr (fun d _ => ancB_adjust hpar d t)

theorem ancestorListL_adjust {l : List (Nat × MpEntry)} {h : Nat → MpEntry → MpEntry}
    (hpar : ∀ s e, (h s e).parents = e.parents) (t : Nat) :
    ancestorListL (adjustEntries l h) t = ancestorListL l t := by
  rw [ancestorListL, ancestorListL, keysL_adjust]
  exact List.filter_congr (fun a _ => ancB_adjust hpar t a)

theorem sumBy_adjust {M : Type} [AddCommMonoid M] {l : List (Nat × MpEntry)}
    {h : Nat → MpEntry → MpEntry} {f : MpEntry → M}
    (hf : ∀ s e, f (h s e) = f e) (ts : List Nat) :
    sumBy (adjustEntries l h) f ts = sumBy l f ts := by
  refine sumBy_congr (fun t _ => ?_)
  rw [findE_adjust]
  cases findE l t with
  | none => rfl
  | some e => exact hf t e

theorem WFlist_adjust {l : List (Nat × MpEntry)} {h : Nat → MpEntry → MpEntry}
    (hpar : ∀ s e, (h s e).parents = e.parents) :
    WFlist (adjustEntries l h) ↔ WFlist l := by
  induction l with
  | nil => exact Iff.rfl
  | cons pr r ih =>
      obtain ⟨t, e⟩ := pr
      show WFlist ((t, h t e) :: adjustEntries r h) ↔ _
      rw [WFlist_cons, WFlist_cons, keysL_adjust, hpar, ih]
      constructor
      · rintro ⟨h1, h2, h3, h4⟩
        refine ⟨h1, h2, ?_, h4⟩
        rintro ⟨s, es⟩ hpr
        have := h3 (s, h s es) (mem_adjust.mpr ⟨es, hpr, rfl⟩)
        rw [hpar] at this
        exact this
      · rintro ⟨h1, h2, h3, h4⟩
        refine ⟨h1, h2, ?_, h4⟩
        rintro ⟨s, es⟩ hpr
        obtain ⟨e₀, hmem, rfl⟩ := mem_adjust.mp hpr
        show t ∉ (h s e₀).parents
        rw [hpar]
        exact h3 (s, e₀) hmem

theorem list_filter_and {α : Type} (p q : α → Bool) (L : List α) :
    (L.filter p).filter q = L.filter (fun a => p a && q a) := by
  induction L with
  | nil => rfl
  | cons a L ih =>
      cases hp : p a
      · simp [List.filter_cons, hp, ih]
      · cases hq : q a <;> simp [List.filter_cons, hp, hq, ih]

theorem residentB_filter (l : List (Nat × MpEntry)) (S : List Nat) (q : Nat) :
    residentB (l.filter (fun pr => decide (pr.1 ∉ S))) q
      = (residentB l q && decide (q ∉ S)) := by
  by_cases hq : q ∈ S
  · rw [residentB, findE_filter_mem hq]
    simp [hq]
  · rw [residentB, findE_filter_not_mem hq]
    simp [hq, residentB]

theorem keysL_filterS (l : List (Nat × MpEntry)) (S : List Nat) :
    keysL (l.filter (fun pr => decide (pr.1 ∉ S)))
      = (keysL l).filter (fun s => decide (s ∉ S)) :=
  keysL_filter (fun s => decide (s ∉ S)) l

theorem mem_keysL_filterS {l : List (Nat × MpEntry)} {S : List Nat} {x : Nat} :
    x ∈ keysL (l.filter (fun pr => decide (pr.1 ∉ S))) ↔ x ∈ keysL l ∧ x ∉ S := by
  rw [keysL_filterS]
  simp [List.mem_filter]

theorem ippL_filter_not_mem {l : List (Nat × MpEntry)} {S : List Nat} {x : Nat}
    (hx : x ∉ S) :
    ippL (l.filter (fun pr => decide (pr.1 ∉ S))) x
      = (ippL l x).filter (fun q => decide (q ∉ S)) := by
  rw [ippL, ippL, findE_filter_not_mem hx]
  cases hf : findE l x with
  | none => rfl
  | some e =>
      rw [list_filter_and]
      exact List.filter_congr (fun q _ => residentB_filter l S q)

theorem ippL_filter_mem {l : List (Nat × MpEntry)} {S : List Nat} {x : Nat}
    (hx : x ∈ S) :
    ippL (l.filter (fun pr => decide (pr.1 ∉ S))) x = [] := by
  rw [ippL, findE_filter_mem hx]

theorem ancL_filter_inv {l : List (Nat × MpEntry)} {S : List Nat} {x a : Nat}
    (h : AncL (l.filter (fun pr => decide (pr.1 ∉ S))) x a) :
    AncL l x a ∧ x ∉ S ∧ a ∉ S := by
  refine ⟨ancL_mono (fun y q hq => ?_) h,
    (mem_keysL_filterS.mp (ancL_source_mem h)).2,
    (mem_keysL_filterS.mp (ancL_target_mem h)).2⟩
  by_cases hy : y ∈ S
  · rw [ippL_filter_mem hy] at hq
    simp at hq
  · rw [ippL_filter_not_mem hy] at hq
    exact (List.mem_filter.mp hq).1

theorem descClosed_ancL {l : List (Nat × MpEntry)} {S : List Nat} (hW : WFlist l)
    (hDC : DescClosed l S) {d s : Nat} (hs : s ∈ S) (h : AncL l d s) : d ∈ S :=
  hDC d (ancL_source_mem h) s hs ((ancB_iff hW).mpr h)

theorem ancClosed_ancL {l : List (Nat × MpEntry)} {S : List Nat} (hW : WFlist l)
    (hAC : AncClosed l S) {x a : Nat} (hx : x ∈ S) (h : AncL l x a) : a ∈ S :=
  hAC x (ancL_source_mem h) hx a (ancL_target_mem h) ((ancB_iff hW).mpr h)

theorem ancL_filter_desc {l : List (Nat × MpEntry)} {S : List Nat} (hW : WFlist l)
    (hDC : DescClosed l S) {x a : Nat} (hx : x ∉ S) (h : AncL l x a) :
    AncL (l.filter (fun pr => decide (pr.1 ∉ S))) x a := by
  refine Relation.TransGen.head_induction_on
    (P := fun y _ => y ∉ S →
      AncL (l.filter (fun pr => decide (pr.1 ∉ S))) y a) h ?_ ?_ hx
  · intro y hy hyS
    have haS : a ∉ S := by
      intro haS
      exact hyS (descClosed_ancL hW hDC haS (Relation.TransGen.single hy))
    refine Relation.TransGen.single ?_
    rw [ippL_filter_not_mem hyS]
    exact List.mem_filter.mpr ⟨hy, by simpa using haS⟩
  · intro y c hyc hca ih hyS
    have hcS : c ∉ S := by
      intro hcS
      exact hyS (descClosed_ancL hW hDC hcS (Relation.TransGen.single hyc))
    refine Relation.TransGen.head ?_ (ih hcS)
    rw [ippL_filter_not_mem hyS]
    exact List.mem_filter.mpr ⟨hyc, by simpa using hcS⟩

theorem ancL_filter_anc {l : List (Nat × MpEntry)} {S : List Nat} (hW : WFlist l)
    (hAC : AncClosed l S) {x a : Nat} (hx : x ∉ S) (ha : a ∉ S) (h : AncL l x a) :
    AncL (l.filter (fun pr => decide (pr.1 ∉ S))) x a := by
  refine Relation.TransGen.head_induction_on
    (P := fun y _ => y ∉ S →
      AncL (l.filter (fun pr => decide (pr.1 ∉ S))) y a) h ?_ ?_ hx
  · intro y hy hyS
    refine Relation.TransGen.single ?_
    rw [ippL_filter_not_mem hyS]
    exact List.mem_filter.mpr ⟨hy, by simpa using ha⟩
  · intro y c hyc hca ih hyS
    have hcS : c ∉ S := by
      intro hcS
      exact ha (ancClosed_ancL hW hAC hcS hca)
    refine Relation.TransGen.head ?_ (ih hcS)
    rw [ippL_filter_not_mem hyS]
    exact List.mem_filter.mpr ⟨hyc, by simpa using hcS⟩

theorem WFlist_filter (f : Nat × MpEntry → Bool) {l : List (Nat × MpEntry)}
    (hW : WFlist l) : WFlist (l.filter f) := by
  induction l with
  | nil => exact trivial
  | cons pr r ih =>
      obtain ⟨t, e⟩ := pr
      rw [WFlist_cons] at hW
      cases hf : f (t, e)
      · rw [List.filter_cons, if_neg (by simp [hf])]
        exact ih hW.2.2.2
      · rw [List.filter_cons, if_pos (by simp [hf])]
        rw [WFlist_cons]
        refine ⟨?_, hW.2.1, ?_, ih hW.2.2.2⟩
        · intro hmem
          simp only [keysL] at hmem
          obtain ⟨q, hq, hfst⟩ := List.mem_map.mp hmem
          exact hW.1 (hfst ▸ mem_keysL_of_mem (List.mem_of_mem_filter hq))
        · intro q hq
          exact hW.2.2.1 q (List.mem_of_mem_filter hq)

/-! ## Effect of `addUnchecked` on the graph -/

theorem bump_parents (t : Nat) (d : TxData) (A : List Nat) :
    ∀ s e, ((fun s e => if s ∈ A then bumpDesc e d else e) s e).parents = e.parents := by
  intro s e
  by_cases h : s ∈ A <;> simp [bumpDesc, h]

theorem bool_eq_of_iff {b1 b2 : Bool} (h : b1 = true ↔ b2 = true) : b1 = b2 := by
  cases b1 <;> cases b2 <;> simp_all

theorem list_filter_eq_nil {α : Type} {p : α → Bool} {L : List α}
    (h : ∀ x ∈ L, p x = false) : L.filter p = [] := by
  induction L with
  | nil => rfl
  | cons a L ih =>
      rw [List.filter_cons, if_neg (by simp [h a (List.mem_cons_self a L)])]
      exact ih (fun x hx => h x (List.mem_cons_of_mem a hx))

theorem list_filter_eq_self {α : Type} {p : α → Bool} {L : List α}
    (h : ∀ x ∈ L, p x = true) : L.filter p = L := by
  induction L with
  | nil => rfl
  | cons a L ih =>
      rw [List.filter_cons, if_pos (by simp [h a (List.mem_cons_self a L)])]
      rw [ih (fun x hx => h x (List.mem_cons_of_mem a hx))]

theorem mem_newTxAncestors {l : List (Nat × MpEntry)} {parents : List Nat} {a : Nat} :
    a ∈ newTxAncestors l parents
      ↔ a ∈ keysL l ∧ ∃ q ∈ parents, residentB l q = true ∧ (q = a ∨ ancB l q a = true) := by
  simp [newTxAncestors, List.mem_filter, List.any_eq_true, Bool.or_eq_true,
    decide_eq_true_iff, and_assoc]

theorem WFlist_addList {l : List (Nat × MpEntry)} {t : Nat} {d : TxData}
    (hW : WFlist l) (hfind : findE l t = none) (htp : t ∉ d.parents)
    (hpars : ∀ pr ∈ l, t ∉ pr.2.parents) : WFlist (addList l t d) := by
  rw [addList, WFlist_cons, keysL_adjust]
  refine ⟨findE_eq_none.mp hfind, htp, ?_, (WFlist_adjust (bump_parents t d _)).mpr hW⟩
  rintro ⟨s, es⟩ hpr
  obtain ⟨e₀, hmem, rfl⟩ := mem_adjust.mp hpr
  show t ∉ ((fun s e => if s ∈ newTxAncestors l d.parents then bumpDesc e d else e) s e₀).parents
  rw [bump_parents t d _ s e₀]
  exact hpars (s, e₀) hmem

theorem keysL_addList (l : List (Nat × MpEntry)) (t : Nat) (d : TxData) :
    keysL (addList l t d) = t :: keysL l := by
  rw [addList, keysL_cons, keysL_adjust]

theorem findE_addList_self (l : List (Nat × MpEntry)) (t : Nat) (d : TxData) :
    findE (addList l t d) t = some (mkEntry l d (newTxAncestors l d.parents)) := by
  rw [addList, findE_cons, if_pos rfl]

theorem findE_addList_ne {l : List (Nat × MpEntry)} {t x : Nat} {d : TxData} (hx : x ≠ t) :
    findE (addList l t d) x
      = (findE l x).map
          (fun e => if x ∈ newTxAncestors l d.parents then bumpDesc e d else e) := by
  rw [addList, findE_cons, if_neg (fun h => hx h.symm), findE_adjust]

theorem ippL_addList_ne {l : List (Nat × MpEntry)} {t x : Nat} {d : TxData}
    (hW : WFlist l) (hfind : findE l t = none) (htp : t ∉ d.parents)
    (hpars : ∀ pr ∈ l, t ∉ pr.2.parents) (hx : x ≠ t) :
    ippL (addList l t d) x = ippL l x := by
  rw [addList] at *
  rw [ippL_cons_ne (WFlist_addList hW hfind htp hpars) hx]
  exact ippL_adjust (bump_parents t d _) x

theorem ancL_addList_ne {l : List (Nat × MpEntry)} {t x a : Nat} {d : TxData}
    (hW : WFlist l) (hfind : findE l t = none) (htp : t ∉ d.parents)
    (hpars : ∀ pr ∈ l, t ∉ pr.2.parents) (hx : x ≠ t) :
    AncL (addList l t d) x a ↔ AncL l x a := by
  rw [addList]
  rw [ancL_cons_iff (WFlist_addList hW hfind htp hpars) hx]
  exact ancL_adjust (bump_parents t d _)

theorem ippL_addList_self {l : List (Nat × MpEntry)} {t : Nat} {d : TxData}
    (hfind : findE l t = none) (htp : t ∉ d.parents) :
    ippL (addList l t d) t = d.parents.filter (fun q => residentB l q) := by
  rw [ippL, findE_addList_self]
  show (mkEntry l d (newTxAncestors l d.parents)).parents.filter
      (fun q => residentB (addList l t d) q) = _
  show d.parents.filter (fun q => residentB (addList l t d) q) = _
  refine List.filter_congr (fun q hq => ?_)
  have hqt : q ≠ t := fun h => htp (h ▸ hq)
  rw [residentB, findE_addList_ne hqt, residentB]
  cases findE l q <;> rfl

theorem no_anc_addList {l : List (Nat × MpEntry)} {t x : Nat} {d : TxData}
    (htp : t ∉ d.parents) (hpars : ∀ pr ∈ l, t ∉ pr.2.parents) :
    ¬ AncL (addList l t d) x t := by
  intro h
  obtain ⟨u, _, hmem⟩ := ancL_tail_cases h
  obtain ⟨e', hfindU, hpar, _⟩ := mem_ippL.mp hmem
  by_cases hu : u = t
  · subst hu
    rw [findE_addList_self] at hfindU
    injection hfindU with hfindU
    subst hfindU
    exact htp hpar
  · rw [findE_addList_ne hu] at hfindU
    cases hf : findE l u with
    | none => rw [hf] at hfindU; exact Option.noConfusion hfindU
    | some e₀ =>
        rw [hf] at hfindU
        injection hfindU with hfindU
        subst hfindU
        rw [bump_parents t d _ u e₀] at hpar
        exact hpars (u, e₀) (findE_mem hf) hpar

theorem anc_addList_self {l : List (Nat × MpEntry)} {t a : Nat} {d : TxData}
    (hW : WFlist l) (hfind : findE l t = none) (htp : t ∉ d.parents)
    (hpars : ∀ pr ∈ l, t ∉ pr.2.parents) :
    AncL (addList l t d) t a ↔ a ∈ newTxAncestors l d.parents := by
  have hkt : t ∉ keysL l := findE_eq_none.mp hfind
  constructor
  · intro h
    obtain ⟨q, hq, hcase⟩ := ancL_head_cases h
    rw [ippL_addList_self hfind htp] at hq
    have hqpar : q ∈ d.parents := (List.mem_filter.mp hq).1
    have hqres : residentB l q = true := by
      have := (List.mem_filter.mp hq).2
      simpa using this
    have hqt : q ≠ t := fun hEq => hkt (hEq ▸ residentB_iff_mem.mp hqres)
    rcases hcase with rfl | hQ
    · exact mem_newTxAncestors.mpr
        ⟨residentB_iff_mem.mp hqres, q, hqpar, hqres, Or.inl rfl⟩
    · have hQl : AncL l q a := (ancL_addList_ne hW hfind htp hpars hqt).mp hQ
      exact mem_newTxAncestors.mpr
        ⟨ancL_target_mem hQl, q, hqpar, hqres, Or.inr ((ancB_iff hW).mpr hQl)⟩
  · intro h
    obtain ⟨hak, q, hqpar, hqres, hcase⟩ := mem_newTxAncestors.mp h
    have hqt : q ≠ t := fun hEq => hkt (hEq ▸ residentB_iff_mem.mp hqres)
    have hstep : q ∈ ippL (addList l t d) t := by
      rw [ippL_addList_self hfind htp]
      exact List.mem_filter.mpr ⟨hqpar, hqres⟩
    rcases hcase with rfl | hanc
    · exact Relation.TransGen.single hstep
    · have hQl : AncL l q a := reachB_sound hanc
      exact Relation.TransGen.head hstep
        ((ancL_addList_ne hW hfind htp hpars hqt).mpr hQl)

theorem descendantListL_addList_self {l : List (Nat × MpEntry)} {t : Nat} {d : TxData}
    (hW : WFlist l) (hfind : findE l t = none) (htp : t ∉ d.parents)
    (hpars : ∀ pr ∈ l, t ∉ pr.2.parents) :
    descendantListL (addList l t d) t = [] := by
  rw [descendantListL]
  exact list_filter_eq_nil (fun x _ => ancB_eq_false (no_anc_addList htp hpars))

theorem ancestorListL_addList_self {l : List (Nat × MpEntry)} {t : Nat} {d : TxData}
    (hW : WFlist l) (hfind : findE l t = none) (htp : t ∉ d.parents)
    (hpars : ∀ pr ∈ l, t ∉ pr.2.parents) :
    ancestorListL (addList l t d) t = newTxAncestors l d.parents := by
  have hWA := WFlist_addList hW hfind htp hpars
  rw [ancestorListL, keysL_addList, List.filter_cons]
  rw [if_neg (by
    have : ¬ AncL (addList l t d) t t := ancL_irrefl hWA
    simp [ancB_eq_false this])]
  rw [newTxAncestors]
  refine List.filter_congr (fun a ha => ?_)
  refine bool_eq_of_iff ?_
  rw [ancB_iff hWA, anc_addList_self hW hfind htp hpars]
  rw [mem_newTxAncestors]
  simp only [List.any_eq_true, List.mem_filter, Bool.or_eq_true, decide_eq_true_iff]
  constructor
  · rintro ⟨_, q, hqp, hqr, hc⟩
    exact ⟨q, ⟨hqp, hqr⟩, hc⟩
  · rintro ⟨q, ⟨hqp, hqr⟩, hc⟩
    refine ⟨ha, q, hqp, hqr, hc⟩

theorem ancB_addList_old {l : List (Nat × MpEntry)} {t x a : Nat} {d : TxData}
    (hW : WFlist l) (hfind : findE l t = none) (htp : t ∉ d.parents)
    (hpars : ∀ pr ∈ l, t ∉ pr.2.parents) (hx : x ≠ t) :
    ancB (addList l t d) x a = ancB l x a := by
  refine bool_eq_of_iff ?_
  rw [ancB_iff (WFlist_addList hW hfind htp hpars), ancB_iff hW]
  exact ancL_addList_ne hW hfind htp hpars hx

theorem ancestorListL_addList_old {l : List (Nat × MpEntry)} {t s : Nat} {d : TxData}
    (hW : WFlist l) (hfind : findE l t = none) (htp : t ∉ d.parents)
    (hpars : ∀ pr ∈ l, t ∉ pr.2.parents) (hs : s ∈ keysL l) :
    ancestorListL (addList l t d) s = ancestorListL l s := by
  have hkt : t ∉ keysL l := findE_eq_none.mp hfind
  have hst : s ≠ t := fun h => hkt (h ▸ hs)
  rw [ancestorListL, keysL_addList, List.filter_cons]
  rw [if_neg (by simp [ancB_eq_false (no_anc_addList (l := l) htp hpars)])]
  rw [ancestorListL]
  exact List.filter_congr
    (fun a _ => ancB_addList_old hW hfind htp hpars hst)

theorem descendantListL_addList_old {l : List (Nat × MpEntry)} {t s : Nat} {d : TxData}
    (hW : WFlist l) (hfind : findE l t = none) (htp : t ∉ d.parents)
    (hpars : ∀ pr ∈ l, t ∉ pr.2.parents) (hs : s ∈ keysL l) :
    descendantListL (addList l t d) s
      = (if s ∈ newTxAncestors l d.parents then [t] else []) ++ descendantListL l s := by
  have hkt : t ∉ keysL l := findE_eq_none.mp hfind
  have hst : s ≠ t := fun h => hkt (h ▸ hs)
  have htl : descendantListL (addList l t d) s
      = (t :: keysL l).filter (fun x => ancB (addList l t d) x s) := by
    rw [descendantListL, keysL_addList]
  rw [htl, List.filter_cons]
  have hhead : ancB (addList l t d) t s = true ↔ s ∈ newTxAncestors l d.parents := by
    rw [ancB_iff (WFlist_addList hW hfind htp hpars)]
    exact anc_addList_self hW hfind htp hpars
  have htail : (keysL l).filter (fun x => ancB (addList l t d) x s)
      = descendantListL l s := by
    rw [descendantListL]
    refine List.filter_congr (fun x hx => ?_)
    exact ancB_addList_old hW hfind htp hpars (fun h => hkt (h ▸ hx))
  by_cases hA : s ∈ newTxAncestors l d.parents
  · rw [if_pos (hhead.mpr hA), htail, if_pos hA, List.singleton_append]
  · rw [if_neg (by
      intro hc
      exact hA (hhead.mp hc)), htail, if_neg hA, List.nil_append]

theorem sumBy_addList_old {M : Type} [AddCommMonoid M] {l : List (Nat × MpEntry)}
    {t : Nat} {d : TxData} {f : MpEntry → M}
    (hf : ∀ e, f (bumpDesc e d) = f e) {ts : List Nat} (hts : ∀ x ∈ ts, x ≠ t) :
    sumBy (addList l t d) f ts = sumBy l f ts := by
  refine sumBy_congr (fun x hx => ?_)
  rw [findE_addList_ne (hts x hx)]
  cases findE l x with
  | none => rfl
  | some e =>
      show f (if x ∈ newTxAncestors l d.parents then bumpDesc e d else e) = f e
      by_cases hxa : x ∈ newTxAncestors l d.parents
      · rw [if_pos hxa, hf]
      · rw [if_neg hxa]

theorem sum_proj_adjust {M : Type} [AddCommMonoid M] {l : List (Nat × MpEntry)}
    {h : Nat → MpEntry → MpEntry} {f : MpEntry → M}
    (hf : ∀ s e, f (h s e) = f e) :
    ((adjustEntries l h).map (fun pr => f pr.2)).sum = (l.map (fun pr => f pr.2)).sum := by
  induction l with
  | nil => rfl
  | cons pr r ih =>
      obtain ⟨s, e⟩ := pr
      have hEq : adjustEntries ((s, e) :: r) h = (s, h s e) :: adjustEntries r h := rfl
      rw [hEq, List.map_cons, List.sum_cons, List.map_cons, List.sum_cons, hf, ih]

/-! ## `addUnchecked` preserves the pool invariants -/

theorem mem_newTxAncestors_ne {l : List (Nat × MpEntry)} {parents : List Nat} {t a : Nat}
    (hfind : findE l t = none) (h : a ∈ newTxAncestors l parents) : a ≠ t := by
  intro hEq
  exact findE_eq_none.mp hfind (hEq ▸ (mem_newTxAncestors.mp h).1)

theorem mem_filter_keys_ne {l : List (Nat × MpEntry)} {t a : Nat} {f : Nat → Bool}
    (hfind : findE l t = none) (h : a ∈ (keysL l).filter f) : a ≠ t := by
  intro hEq
  exact findE_eq_none.mp hfind (hEq ▸ (List.mem_filter.mp h).1)

theorem bump_fee (d : TxData) (e : MpEntry) : (bumpDesc e d).fee = e.fee := rfl

theorem bump_vsize (d : TxData) (e : MpEntry) : (bumpDesc e d).vsize = e.vsize := rfl

theorem bump_sigOps (d : TxData) (e : MpEntry) : (bumpDesc e d).sigOps = e.sigOps := rfl

theorem pGood_add {p : MemPool} {t : Nat} {d : TxData}
    (hG : pGood p) (hOK : addOK p t d) : pGood (addUnchecked p t d) := by
  obtain ⟨hW, hC, hT⟩ := hG
  obtain ⟨hfind, htp, hpars⟩ := hOK
  have hWA : WFlist (addList p.mapTx t d) := WFlist_addList hW hfind htp hpars
  refine ⟨hWA, ?_, ?_⟩
  · -- Consistency of every entry of the new store
    intro pr hpr
    have hpr2 : pr ∈ addList p.mapTx t d := hpr
    obtain ⟨s, es⟩ := pr
    show entryConsistent (addList p.mapTx t d) s es
    rcases List.mem_cons.mp hpr2 with heq | hmem
    · -- the new entry
      injection heq with h1 h2
      subst h1; subst h2
      have hds : descendantListL (addList p.mapTx s d) s = [] :=
        descendantListL_addList_self hW hfind htp hpars
      have has : ancestorListL (addList p.mapTx s d) s = newTxAncestors p.mapTx d.parents :=
        ancestorListL_addList_self hW hfind htp hpars
      have hAne : ∀ x ∈ newTxAncestors p.mapTx d.parents, x ≠ s :=
        fun x hx => mem_newTxAncestors_ne hfind hx
      refine ⟨?_, ?_, ?_, ?_, ?_, ?_, ?_⟩
      · rw [hds, sumBy_nil]; simp [mkEntry]
      · rw [hds, sumBy_nil]; simp [mkEntry]
      · rw [hds]; simp [mkEntry]
      · rw [has, sumBy_addList_old (fun e => bump_fee d e) hAne]; simp [mkEntry]
      · rw [has, sumBy_addList_old (fun e => bump_vsize d e) hAne]; simp [mkEntry]
      · rw [has]; simp [mkEntry]
      · rw [has, sumBy_addList_old (fun e => bump_sigOps d e) hAne]; simp [mkEntry]
    · -- a pre-existing entry, possibly bumped
      obtain ⟨e₀, hmem₀, rfl⟩ := mem_adjust.mp hmem
      have hkeys : s ∈ keysL p.mapTx := mem_keysL_of_mem hmem₀
      have hst : s ≠ t := fun h => findE_eq_none.mp hfind (h ▸ hkeys)
      have hold : entryConsistent p.mapTx s e₀ := hC (s, e₀) hmem₀
      obtain ⟨o1, o2, o3, o4, o5, o6, o7⟩ := hold
      have hdl := descendantListL_addList_old hW hfind htp hpars hkeys (d := d)
      have hal := ancestorListL_addList_old hW hfind htp hpars hkeys (d := d)
      have hdne : ∀ x ∈ descendantListL p.mapTx s, x ≠ t :=
        fun x hx => mem_filter_keys_ne hfind hx
      have hane : ∀ x ∈ ancestorListL p.mapTx s, x ≠ t :=
        fun x hx => mem_filter_keys_ne hfind hx
      by_cases hA : s ∈ newTxAncestors p.mapTx d.parents
      · -- ancestors of the new tx get their descendant aggregates bumped
        rw [if_pos hA] at hdl ⊢
        rw [List.singleton_append] at hdl
        refine ⟨?_, ?_, ?_, ?_, ?_, ?_, ?_⟩
        · rw [hdl, sumBy_cons, findE_addList_self,
            sumBy_addList_old (fun e => bump_fee d e) hdne]
          show e₀.feeWithDesc + d.fee
            = e₀.fee + (d.fee + sumBy p.mapTx MpEntry.fee (descendantListL p.mapTx s))
          rw [o1]; ring
        · rw [hdl, sumBy_cons, findE_addList_self,
            sumBy_addList_old (fun e => bump_vsize d e) hdne]
          show e₀.sizeWithDesc + d.vsize
            = e₀.vsize + (d.vsize + sumBy p.mapTx MpEntry.vsize (descendantListL p.mapTx s))
          rw [o2]; ring
        · rw [hdl, List.length_cons]
          show e₀.countWithDesc + 1 = 1 + ((descendantListL p.mapTx s).length + 1)
          rw [o3]; ring
        · rw [hal, sumBy_addList_old (fun e => bump_fee d e) hane]
          show e₀.feeWithAnc = e₀.fee + sumBy p.mapTx MpEntry.fee (ancestorListL p.mapTx s)
          exact o4
        · rw [hal, sumBy_addList_old (fun e => bump_vsize d e) hane]
          show e₀.sizeWithAnc = e₀.vsize + sumBy p.mapTx MpEntry.vsize (ancestorListL p.mapTx s)
          exact o5
        · rw [hal]
          show e₀.countWithAnc = 1 + (ancestorListL p.mapTx s).length
          exact o6
        · rw [hal, sumBy_addList_old (fun e => bump_sigOps d e) hane]
          show e₀.sigOpWithAnc = e₀.sigOps + sumBy p.mapTx MpEntry.sigOps (ancestorListL p.mapTx s)
          exact o7
      · -- non-ancestors are untouched
        rw [if_neg hA] at hdl ⊢
        rw [List.nil_append] at hdl
        refine ⟨?_, ?_, ?_, ?_, ?_, ?_, ?_⟩
        · rw [hdl, sumBy_addList_old (fun e => bump_fee d e) hdne]; exact o1
        · rw [hdl, sumBy_addList_old (fun e => bump_vsize d e) hdne]; exact o2
        · rw [hdl]; exact o3
        · rw [hal, sumBy_addList_old (fun e => bump_fee d e) hane]; exact o4
        · rw [hal, sumBy_addList_old (fun e => bump_vsize d e) hane]; exact o5
        · rw [hal]; exact o6
        · rw [hal, sumBy_addList_old (fun e => bump_sigOps d e) hane]; exact o7
  · -- the cached total size
    show p.totalTxSize + d.vsize = ((addList p.mapTx t d).map (fun pr => pr.2.vsize)).sum
    rw [addList, List.map_cons, List.sum_cons,
      sum_proj_adjust (f := MpEntry.vsize) (fun s e => by
        by_cases h : s ∈ newTxAncestors p.mapTx d.parents
        · rw [if_pos h]; exact bump_vsize d e
        · rw [if_neg h])]
    rw [totalOK] at hT
    rw [hT]
    show _ = (mkEntry p.mapTx d (newTxAncestors p.mapTx d.parents)).vsize + _
    simp only [mkEntry]
    ring

/-! ## Effect of staged removal on the graph -/

theorem decEntry_parents (l : List (Nat × MpEntry)) (S : List Nat) (uD : Bool) :
    ∀ s e, (decEntry l S uD s e).parents = e.parents := fun _ _ => rfl

theorem decEntry_fee (l : List (Nat × MpEntry)) (S : List Nat) (uD : Bool)
    (s : Nat) (e : MpEntry) : (decEntry l S uD s e).fee = e.fee := rfl

theorem decEntry_vsize (l : List (Nat × MpEntry)) (S : List Nat) (uD : Bool)
    (s : Nat) (e : MpEntry) : (decEntry l S uD s e).vsize = e.vsize := rfl

theorem decEntry_sigOps (l : List (Nat × MpEntry)) (S : List Nat) (uD : Bool)
    (s : Nat) (e : MpEntry) : (decEntry l S uD s e).sigOps = e.sigOps := rfl

theorem WFlist_rmList {l : List (Nat × MpEntry)} (S : List Nat) (uD : Bool)
    (hW : WFlist l) : WFlist (rmList l S uD) :=
  (WFlist_adjust (decEntry_parents l S uD)).mpr (WFlist_filter _ hW)

theorem keysL_rmList (l : List (Nat × MpEntry)) (S : List Nat) (uD : Bool) :
    keysL (rmList l S uD) = (keysL l).filter (fun s => decide (s ∉ S)) := by
  rw [rmList, keysL_adjust, keysL_filterS]

theorem findE_rmList_not_mem {l : List (Nat × MpEntry)} {S : List Nat} {uD : Bool}
    {x : Nat} (hx : x ∉ S) :
    findE (rmList l S uD) x = (findE l x).map (decEntry l S uD x) := by
  rw [rmList, findE_adjust, findE_filter_not_mem hx]

theorem ancL_rmList_to {l : List (Nat × MpEntry)} {S : List Nat} {uD : Bool} {x a : Nat}
    (h : AncL (rmList l S uD) x a) : AncL l x a ∧ x ∉ S ∧ a ∉ S := by
  rw [rmList, ancL_adjust (decEntry_parents l S uD)] at h
  exact ancL_filter_inv h

/-- The shape of ancestorhood among survivors shared by the two legal staged
removal modes: among survivors, ancestors are exactly the surviving old
ancestors. -/
theorem ancL_rm_desc {l : List (Nat × MpEntry)} {S : List Nat} {uD : Bool}
    (hW : WFlist l) (hDC : DescClosed l S) {x a : Nat} (hx : x ∉ S) :
    AncL (rmList l S uD) x a ↔ AncL l x a ∧ a ∉ S := by
  constructor
  · intro h
    obtain ⟨h1, _, h3⟩ := ancL_rmList_to h
    exact ⟨h1, h3⟩
  · rintro ⟨h1, _⟩
    rw [rmList, ancL_adjust (decEntry_parents l S uD)]
    exact ancL_filter_desc hW hDC hx h1

theorem ancL_rm_anc {l : List (Nat × MpEntry)} {S : List Nat} {uD : Bool}
    (hW : WFlist l) (hAC : AncClosed l S) {x a : Nat} (hx : x ∉ S) :
    AncL (rmList l S uD) x a ↔ AncL l x a ∧ a ∉ S := by
  constructor
  · intro h
    obtain ⟨h1, _, h3⟩ := ancL_rmList_to h
    exact ⟨h1, h3⟩
  · rintro ⟨h1, ha⟩
    rw [rmList, ancL_adjust (decEntry_parents l S uD)]
    exact ancL_filter_anc hW hAC hx ha h1

theorem descendantListL_rm {l : List (Nat × MpEntry)} {S : List Nat} {uD : Bool}
    (hW : WFlist l)
    (hiff : ∀ x a, x ∉ S → (AncL (rmList l S uD) x a ↔ AncL l x a ∧ a ∉ S))
    {t : Nat} (ht : t ∉ S) :
    descendantListL (rmList l S uD) t
      = (descendantListL l t).filter (fun x => decide (x ∉ S)) := by
  have hWr : WFlist (rmList l S uD) := WFlist_rmList S uD hW
  rw [descendantListL, keysL_rmList, list_filter_and, descendantListL, list_filter_and]
  refine List.filter_congr (fun x hx => ?_)
  by_cases hxS : x ∈ S
  · simp only [hxS]
    simp
  · have h1 : ancB (rmList l S uD) x t = ancB l x t := by
      refine bool_eq_of_iff ?_
      rw [ancB_iff hWr, ancB_iff hW, hiff x t hxS]
      exact ⟨fun h => h.1, fun h => ⟨h, ht⟩⟩
    rw [h1]
    simp only [hxS]
    simp [Bool.and_comm]

theorem ancestorListL_rm {l : List (Nat × MpEntry)} {S : List Nat} {uD : Bool}
    (hW : WFlist l)
    (hiff : ∀ x a, x ∉ S → (AncL (rmList l S uD) x a ↔ AncL l x a ∧ a ∉ S))
    {t : Nat} (ht : t ∉ S) :
    ancestorListL (rmList l S uD) t
      = (ancestorListL l t).filter (fun a => decide (a ∉ S)) := by
  have hWr : WFlist (rmList l S uD) := WFlist_rmList S uD hW
  rw [ancestorListL, keysL_rmList, list_filter_and, ancestorListL, list_filter_and]
  refine List.filter_congr (fun a ha => ?_)
  by_cases haS : a ∈ S
  · have h0 : ancB (rmList l S uD) t a = false := by
      cases hb : ancB (rmList l S uD) t a
      · rfl
      · obtain ⟨_, _, h3⟩ := ancL_rmList_to (reachB_sound hb)
        exact absurd haS h3
    rw [h0]
    simp [haS]
  · have h1 : ancB (rmList l S uD) t a = ancB l t a := by
      refine bool_eq_of_iff ?_
      rw [ancB_iff hWr, ancB_iff hW, hiff t a ht]
      exact ⟨fun h => h.1, fun h => ⟨h, haS⟩⟩
    rw [h1]
    simp [haS, Bool.and_comm]

theorem sumBy_rmList {M : Type} [AddCommMonoid M] {l : List (Nat × MpEntry)}
    {S : List Nat} {uD : Bool} {f : MpEntry → M}
    (hf : ∀ s e, f (decEntry l S uD s e) = f e) {ts : List Nat}
    (hts : ∀ x ∈ ts, x ∉ S) :
    sumBy (rmList l S uD) f ts = sumBy l f ts := by
  refine sumBy_congr (fun x hx => ?_)
  rw [findE_rmList_not_mem (hts x hx)]
  cases findE l x with
  | none => rfl
  | some e => exact hf x e

theorem filter_decide_not (S : List Nat) (ts : List Nat) :
    ts.filter (fun x => !(decide (x ∈ S))) = ts.filter (fun x => decide (x ∉ S)) :=
  List.filter_congr (fun x _ => by simp [decide_not])

theorem sumBy_split_S {M : Type} [AddCommMonoid M] (l : List (Nat × MpEntry))
    (f : MpEntry → M) (S : List Nat) (ts : List Nat) :
    sumBy l f ts = sumBy l f (ts.filter (fun x => decide (x ∈ S)))
      + sumBy l f (ts.filter (fun x => decide (x ∉ S))) := by
  rw [sumBy, sumBy, sumBy, ← filter_decide_not S ts]
  exact list_sum_map_filter_split _ (fun x => decide (x ∈ S)) ts

theorem length_split_S (S : List Nat) (ts : List Nat) :
    ts.length = (ts.filter (fun x => decide (x ∈ S))).length
      + (ts.filter (fun x => decide (x ∉ S))).length := by
  rw [← filter_decide_not S ts]
  exact list_length_filter_split (fun x => decide (x ∈ S)) ts

theorem sumBy_keys_filter {M : Type} [AddCommMonoid M] {l : List (Nat × MpEntry)}
    (hnd : (keysL l).Nodup) (f : MpEntry → M) (g : Nat → Bool) :
    sumBy l f ((keysL l).filter g)
      = ((l.filter (fun pr => g pr.1)).map (fun pr => f pr.2)).sum := by
  induction l with
  | nil => rfl
  | cons pr r ih =>
      obtain ⟨t, e⟩ := pr
      rw [keysL_cons] at hnd ⊢
      have hnd2 := List.nodup_cons.mp hnd
      have htail : sumBy ((t, e) :: r) f ((keysL r).filter g)
          = sumBy r f ((keysL r).filter g) := by
        refine sumBy_congr (fun x hx => ?_)
        have hxr : x ∈ keysL r := (List.mem_filter.mp hx).1
        have hxt : t ≠ x := fun h => hnd2.1 (h ▸ hxr)
        rw [findE_cons, if_neg hxt]
      cases hg : g t
      · rw [List.filter_cons, if_neg (by simp [hg]), List.filter_cons,
          if_neg (by simp [hg]), htail, ih hnd2.2]
      · rw [List.filter_cons, if_pos (by simp [hg]), List.filter_cons,
          if_pos (by simp [hg]), sumBy_cons, findE_cons, if_pos rfl,
          List.map_cons, List.sum_cons, htail, ih hnd2.2]

/-! ## Staged removal preserves the pool invariants -/

theorem mem_filter_not_S {S : List Nat} {ts : List Nat} :
    ∀ x ∈ ts.filter (fun x => decide (x ∉ S)), x ∉ S := by
  intro x hx
  have := List.of_mem_filter hx
  simpa using this

theorem ancList_not_S_of_descClosed {l : List (Nat × MpEntry)} {S : List Nat}
    (hW : WFlist l) (hDC : DescClosed l S) {s : Nat} (hsS : s ∉ S) :
    ∀ a ∈ ancestorListL l s, a ∉ S := by
  intro a ha haS
  have hanc : AncL l s a := reachB_sound (List.of_mem_filter ha)
  exact hsS (descClosed_ancL hW hDC haS hanc)

theorem pGood_removeStaged {p : MemPool} {S : List Nat} {uD : Bool} (hG : pGood p)
    (hCL : (uD = false ∧ DescClosed p.mapTx S) ∨ (uD = true ∧ AncClosed p.mapTx S)) :
    pGood (removeStaged p S uD) := by
  obtain ⟨hW, hC, hT⟩ := hG
  have hWr : WFlist (rmList p.mapTx S uD) := WFlist_rmList S uD hW
  have hiff : ∀ x a, x ∉ S →
      (AncL (rmList p.mapTx S uD) x a ↔ AncL p.mapTx x a ∧ a ∉ S) := by
    rcases hCL with ⟨_, hDC⟩ | ⟨_, hAC⟩
    · exact fun x a hx => ancL_rm_desc hW hDC hx
    · exact fun x a hx => ancL_rm_anc hW hAC hx
  refine ⟨hWr, ?_, ?_⟩
  · intro pr hpr
    obtain ⟨s, es⟩ := pr
    show entryConsistent (rmList p.mapTx S uD) s es
    have hpr2 : (s, es) ∈ rmList p.mapTx S uD := hpr
    rw [rmList] at hpr2
    obtain ⟨e₀, hmem₀, rfl⟩ := mem_adjust.mp hpr2
    have hmem1 : (s, e₀) ∈ p.mapTx := List.mem_of_mem_filter hmem₀
    have hsS : s ∉ S := by
      have := List.of_mem_filter hmem₀
      simpa using this
    have hold : entryConsistent p.mapTx s e₀ := hC (s, e₀) hmem1
    obtain ⟨o1, o2, o3, o4, o5, o6, o7⟩ := hold
    have hdl := descendantListL_rm hW hiff hsS
    have hal := ancestorListL_rm hW hiff hsS
    have hdmem : ∀ x ∈ (descendantListL p.mapTx s).filter (fun x => decide (x ∉ S)),
        x ∉ S := mem_filter_not_S
    have hamem : ∀ x ∈ (ancestorListL p.mapTx s).filter (fun a => decide (a ∉ S)),
        x ∉ S := mem_filter_not_S
    refine ⟨?_, ?_, ?_, ?_, ?_, ?_, ?_⟩
    · rw [hdl, sumBy_rmList (decEntry_fee p.mapTx S uD) hdmem]
      show e₀.feeWithDesc
          - sumBy p.mapTx MpEntry.fee
            ((descendantListL p.mapTx s).filter (fun x => decide (x ∈ S)))
        = e₀.fee + sumBy p.mapTx MpEntry.fee
            ((descendantListL p.mapTx s).filter (fun x => decide (x ∉ S)))
      rw [o1, sumBy_split_S p.mapTx MpEntry.fee S (descendantListL p.mapTx s)]
      omega
    · rw [hdl, sumBy_rmList (decEntry_vsize p.mapTx S uD) hdmem]
      show e₀.sizeWithDesc
          - sumBy p.mapTx MpEntry.vsize
            ((descendantListL p.mapTx s).filter (fun x => decide (x ∈ S)))
        = e₀.vsize + sumBy p.mapTx MpEntry.vsize
            ((descendantListL p.mapTx s).filter (fun x => decide (x ∉ S)))
      rw [o2, sumBy_split_S p.mapTx MpEntry.vsize S (descendantListL p.mapTx s)]
      omega
    · rw [hdl]
      show e₀.countWithDesc
          - ((descendantListL p.mapTx s).filter (fun x => decide (x ∈ S))).length
        = 1 + ((descendantListL p.mapTx s).filter (fun x => decide (x ∉ S))).length
      rw [o3, length_split_S S (descendantListL p.mapTx s)]
      omega
    · rw [hal, sumBy_rmList (decEntry_fee p.mapTx S uD) hamem]
      rcases hCL with ⟨huD, hDC⟩ | ⟨huD, _⟩
      · subst huD
        have hself : (ancestorListL p.mapTx s).filter (fun a => decide (a ∉ S))
            = ancestorListL p.mapTx s :=
          list_filter_eq_self (fun a ha => by
            simpa using ancList_not_S_of_descClosed hW hDC hsS a ha)
        rw [hself]
        show e₀.feeWithAnc - sumBy p.mapTx MpEntry.fee []
          = e₀.fee + sumBy p.mapTx MpEntry.fee (ancestorListL p.mapTx s)
        rw [sumBy_nil, o4]
        omega
      · subst huD
        show e₀.feeWithAnc
            - sumBy p.mapTx MpEntry.fee
              ((ancestorListL p.mapTx s).filter (fun a => decide (a ∈ S)))
          = e₀.fee + sumBy p.mapTx MpEntry.fee
              ((ancestorListL p.mapTx s).filter (fun a => decide (a ∉ S)))
        rw [o4, sumBy_split_S p.mapTx MpEntry.fee S (ancestorListL p.mapTx s)]
        omega
    · rw [hal, sumBy_rmList (decEntry_vsize p.mapTx S uD) hamem]
      rcases hCL with ⟨huD, hDC⟩ | ⟨huD, _⟩
      · subst huD
        have hself : (ancestorListL p.mapTx s).filter (fun a => decide (a ∉ S))
            = ancestorListL p.mapTx s :=
          list_filter_eq_self (fun a ha => by
            simpa using ancList_not_S_of_descClosed hW hDC hsS a ha)
        rw [hself]
        show e₀.sizeWithAnc - sumBy p.mapTx MpEntry.vsize []
          = e₀.vsize + sumBy p.mapTx MpEntry.vsize (ancestorListL p.mapTx s)
        rw [sumBy_nil, o5]
        omega
      · subst huD
        show e₀.sizeWithAnc
            - sumBy p.mapTx MpEntry.vsize
              ((ancestorListL p.mapTx s).filter (fun a => decide (a ∈ S)))
          = e₀.vsize + sumBy p.mapTx MpEntry.vsize
              ((ancestorListL p.mapTx s).filter (fun a => decide (a ∉ S)))
        rw [o5, sumBy_split_S p.mapTx MpEntry.vsize S (ancestorListL p.mapTx s)]
        omega
    · rw [hal]
      rcases hCL with ⟨huD, hDC⟩ | ⟨huD, _⟩
      · subst huD
        have hself : (ancestorListL p.mapTx s).filter (fun a => decide (a ∉ S))
            = ancestorListL p.mapTx s :=
          list_filter_eq_self (fun a ha => by
            simpa using ancList_not_S_of_descClosed hW hDC hsS a ha)
        rw [hself]
        show e₀.countWithAnc - List.length [] = 1 + (ancestorListL p.mapTx s).length
        rw [o6]
        simp
      · subst huD
        show e₀.countWithAnc
            - ((ancestorListL p.mapTx s).filter (fun a => decide (a ∈ S))).length
          = 1 + ((ancestorListL p.mapTx s).filter (fun a => decide (a ∉ S))).length
        rw [o6, length_split_S S (ancestorListL p.mapTx s)]
        omega
    · rw [hal, sumBy_rmList (decEntry_sigOps p.mapTx S uD) hamem]
      rcases hCL with ⟨huD, hDC⟩ | ⟨huD, _⟩
      · subst huD
        have hself : (ancestorListL p.mapTx s).filter (fun a => decide (a ∉ S))
            = ancestorListL p.mapTx s :=
          list_filter_eq_self (fun a ha => by
            simpa using ancList_not_S_of_descClosed hW hDC hsS a ha)
        rw [hself]
        show e₀.sigOpWithAnc - sumBy p.mapTx MpEntry.sigOps []
          = e₀.sigOps + sumBy p.mapTx MpEntry.sigOps (ancestorListL p.mapTx s)
        rw [sumBy_nil, o7]
        omega
      · subst huD
        show e₀.sigOpWithAnc
            - sumBy p.mapTx MpEntry.sigOps
              ((ancestorListL p.mapTx s).filter (fun a => decide (a ∈ S)))
          = e₀.sigOps + sumBy p.mapTx MpEntry.sigOps
              ((ancestorListL p.mapTx s).filter (fun a => decide (a ∉ S)))
        rw [o7, sumBy_split_S p.mapTx MpEntry.sigOps S (ancestorListL p.mapTx s)]
        omega
  · show p.totalTxSize
        - sumBy p.mapTx MpEntry.vsize ((keysL p.mapTx).filter (fun s => decide (s ∈ S)))
      = ((rmList p.mapTx S uD).map (fun pr => pr.2.vsize)).sum
    rw [rmList, sum_proj_adjust (h := decEntry p.mapTx S uD) (f := MpEntry.vsize)
      (fun s e => decEntry_vsize p.mapTx S uD s e)]
    rw [sumBy_keys_filter hW.nodupKeys MpEntry.vsize (fun s => decide (s ∈ S))]
    have hsplit := list_sum_map_filter_split (fun pr : Nat × MpEntry => pr.2.vsize)
      (fun pr => decide (pr.1 ∈ S)) p.mapTx
    have hfo : p.mapTx.filter (fun pr => !(decide (pr.1 ∈ S)))
        = p.mapTx.filter (fun pr => decide (pr.1 ∉ S)) :=
      List.filter_congr (fun pr _ => by simp [decide_not])
    rw [hfo] at hsplit
    rw [totalOK] at hT
    rw [hT, hsplit]
    omega

/-! ## The legal operations all reduce to invariant-preserving steps -/

theorem mem_packageOf {l : List (Nat × MpEntry)} {t s : Nat} :
    s ∈ packageOf l t ↔ s ∈ keysL l ∧ (s = t ∨ ancB l s t = true) := by
  simp [packageOf, List.mem_filter, Bool.or_eq_true, decide_eq_true_iff]

theorem packageOf_descClosed {l : List (Nat × MpEntry)} (hW : WFlist l) (t : Nat) :
    DescClosed l (packageOf l t) := by
  intro x hx s hs hanc
  obtain ⟨hsk, hcase⟩ := mem_packageOf.mp hs
  refine mem_packageOf.mpr ⟨hx, Or.inr ?_⟩
  rcases hcase with rfl | hst
  · exact hanc
  · exact (ancB_iff hW).mpr
      (ancL_trans (reachB_sound hanc) (reachB_sound hst))

theorem mem_expireStage {l : List (Nat × MpEntry)} {cutoff : Int} {s : Nat} :
    s ∈ expireStage l cutoff
      ↔ s ∈ keysL l ∧ (isOldB l cutoff s = true
          ∨ ∃ a ∈ ancestorListL l s, isOldB l cutoff a = true) := by
  simp [expireStage, List.mem_filter, Bool.or_eq_true, List.any_eq_true]

theorem expireStage_descClosed {l : List (Nat × MpEntry)} (hW : WFlist l)
    (cutoff : Int) : DescClosed l (expireStage l cutoff) := by
  intro x hx s hs hanc
  obtain ⟨hsk, hcase⟩ := mem_expireStage.mp hs
  have hxs : AncL l x s := reachB_sound hanc
  refine mem_expireStage.mpr ⟨hx, Or.inr ?_⟩
  rcases hcase with hold | ⟨a, ha, haold⟩
  · exact ⟨s, List.mem_filter.mpr ⟨hsk, (ancB_iff hW).mpr hxs⟩, hold⟩
  · have haa : AncL l s a := reachB_sound (List.of_mem_filter ha)
    have hak : a ∈ keysL l := (List.mem_filter.mp ha).1
    exact ⟨a, List.mem_filter.mpr ⟨hak, (ancB_iff hW).mpr (ancL_trans hxs haa)⟩, haold⟩

theorem pGood_empty : pGood emptyPool := by
  refine ⟨trivial, ?_, rfl⟩
  intro pr hpr
  exact absurd hpr (List.not_mem_nil pr)

theorem pGood_trimGo {limit : Nat} :
    ∀ (fuel : Nat) (p : MemPool), pGood p → pGood (trimGo limit fuel p) := by
  intro fuel
  induction fuel with
  | zero => exact fun p h => h
  | succ n ih =>
      intro p hp
      rw [trimGo]
      by_cases hle : p.totalTxSize ≤ limit
      · rw [if_pos hle]; exact hp
      · rw [if_neg hle]
        cases hv : pickVictim p.mapTx with
        | none => exact hp
        | some pr =>
            exact ih _ (pGood_removeStaged hp
              (Or.inl ⟨rfl, packageOf_descClosed hp.1 pr.1⟩))

/-- Every pool state reachable by the legal operations satisfies the tracked
invariants: well-formed store, exact cached aggregates, exact size total. -/
theorem pGood_reachable {p : MemPool} (h : Reachable p) : pGood p := by
  induction h with
  | empty => exact pGood_empty
  | add _ hOK ih => exact pGood_add ih hOK
  | removeRec _ ih =>
      exact pGood_removeStaged ih (Or.inl ⟨rfl, packageOf_descClosed ih.1 _⟩)
  | removeBlk _ hvtx ih => exact pGood_removeStaged ih (Or.inr ⟨rfl, hvtx⟩)
  | removeStg _ hcl ih => exact pGood_removeStaged ih hcl
  | trim _ ih => exact pGood_trimGo _ _ ih
  | expireOp _ ih =>
      exact pGood_removeStaged ih (Or.inl ⟨rfl, expireStage_descClosed ih.1 _⟩)

/-! ## Structure of chain pools -/

theorem if_bump_parents (c : Prop) [Decidable c] (e : MpEntry) (d : TxData) :
    (if c then bumpDesc e d else e).parents = e.parents := by
  by_cases h : c <;> simp [h, bumpDesc]

theorem chainPool_mem {fee : Nat → Int} {vs so : Nat → Nat} {tm : Nat → Int} :
    ∀ {n : Nat} {pr : Nat × MpEntry}, pr ∈ (chainPool fee vs so tm n).mapTx →
      pr.1 < n ∧ pr.2.parents = (chainData fee vs so tm pr.1).parents := by
  intro n
  induction n with
  | zero => intro pr hpr; exact absurd hpr (List.not_mem_nil pr)
  | succ n ih =>
      intro pr hpr
      have hpr2 : pr ∈ addList (chainPool fee vs so tm n).mapTx n (chainData fee vs so tm n) :=
        hpr
      obtain ⟨s, es⟩ := pr
      rcases List.mem_cons.mp hpr2 with heq | hmem
      · injection heq with h1 h2
        subst h1; subst h2
        exact ⟨Nat.lt_succ_self s, rfl⟩
      · obtain ⟨e₀, hmem₀, rfl⟩ := mem_adjust.mp hmem
        have hih := ih hmem₀
        exact ⟨Nat.lt_succ_of_lt hih.1, (if_bump_parents _ e₀ _).trans hih.2⟩

theorem chainPool_keys_lt {fee : Nat → Int} {vs so : Nat → Nat} {tm : Nat → Int}
    {n x : Nat} (hx : x ∈ keysL (chainPool fee vs so tm n).mapTx) : x < n := by
  simp only [keysL] at hx
  obtain ⟨pr, hpr, hfst⟩ := List.mem_map.mp hx
  exact hfst ▸ (chainPool_mem hpr).1

theorem chainPool_addOK (fee : Nat → Int) (vs so : Nat → Nat) (tm : Nat → Int) (n : Nat) :
    addOK (chainPool fee vs so tm n) n (chainData fee vs so tm n) := by
  refine ⟨findE_eq_none.mpr (fun h => Nat.lt_irrefl n (chainPool_keys_lt h)), ?_, ?_⟩
  · cases n with
    | zero => simp [chainData]
    | succ j => simp [chainData]
  · intro pr hpr
    rw [(chainPool_mem hpr).2]
    have hlt := (chainPool_mem hpr).1
    cases hp1 : pr.1 with
    | zero => simp [chainData]
    | succ j =>
        simp only [chainData, List.mem_singleton]
        intro hEq
        subst hEq
        rw [hp1] at hlt
        omega

theorem chainPool_reachable (fee : Nat → Int) (vs so : Nat → Nat) (tm : Nat → Int) :
    ∀ n, Reachable (chainPool fee vs so tm n) := by
  intro n
  induction n with
  | zero => exact Reachable.empty
  | succ n ih => exact Reachable.add ih (chainPool_addOK fee vs so tm n)

theorem chainPool_good (fee : Nat → Int) (vs so : Nat → Nat) (tm : Nat → Int) (n : Nat) :
    pGood (chainPool fee vs so tm n) :=
  pGood_reachable (chainPool_reachable fee vs so tm n)

/-! ## Add followed by recursive removal of the same txid is the identity -/

theorem MpEntry_ext {a b : MpEntry}
    (h1 : a.fee = b.fee) (h2 : a.vsize = b.vsize) (h3 : a.sigOps = b.sigOps)
    (h4 : a.time = b.time) (h5 : a.parents = b.parents)
    (h6 : a.feeWithDesc = b.feeWithDesc) (h7 : a.sizeWithDesc = b.sizeWithDesc)
    (h8 : a.countWithDesc = b.countWithDesc) (h9 : a.feeWithAnc = b.feeWithAnc)
    (h10 : a.sizeWithAnc = b.sizeWithAnc) (h11 : a.countWithAnc = b.countWithAnc)
    (h12 : a.sigOpWithAnc = b.sigOpWithAnc) : a = b := by
  cases a; cases b
  simp_all

theorem MemPool_ext {p q : MemPool} (h1 : p.mapTx = q.mapTx)
    (h2 : p.totalTxSize = q.totalTxSize) : p = q := by
  cases p; cases q
  simp_all

theorem adjust_adjust (l : List (Nat × MpEntry)) (h1 h2 : Nat → MpEntry → MpEntry) :
    adjustEntries (adjustEntries l h1) h2
      = adjustEntries l (fun s e => h2 s (h1 s e)) := by
  induction l with
  | nil => rfl
  | cons pr r ih =>
      show (pr.1, h2 pr.1 (h1 pr.1 pr.2)) :: adjustEntries (adjustEntries r h1) h2 = _
      rw [ih]
      rfl

theorem adjust_eq_self {l : List (Nat × MpEntry)} {h : Nat → MpEntry → MpEntry}
    (hid : ∀ pr ∈ l, h pr.1 pr.2 = pr.2) : adjustEntries l h = l := by
  induction l with
  | nil => rfl
  | cons pr r ih =>
      show (pr.1, h pr.1 pr.2) :: adjustEntries r h = pr :: r
      rw [hid pr (List.mem_cons_self pr r),
        ih (fun q hq => hid q (List.mem_cons_of_mem pr hq))]

/-- C5 (core form): adding a fresh, non-orphan transaction and then removing
the same txid recursively restores the pool exactly. -/
theorem add_remove_id {p : MemPool} {t : Nat} {d : TxData}
    (hW : WFlist p.mapTx) (hOK : addOK p t d) :
    removeRecursive (addUnchecked p t d) t = p := by
  obtain ⟨hfind, htp, hpars⟩ := hOK
  have hWA : WFlist (addList p.mapTx t d) := WFlist_addList hW hfind htp hpars
  have hm : (addUnchecked p t d).mapTx = addList p.mapTx t d := rfl
  have hktl : ∀ x ∈ keysL p.mapTx, x ≠ t :=
    fun x hx hEq => findE_eq_none.mp hfind (hEq ▸ hx)
  -- the staged package of the fresh transaction is just the transaction
  have hpack : packageOf (addList p.mapTx t d) t = [t] := by
    rw [packageOf, keysL_addList, List.filter_cons, if_pos (by simp)]
    have hnil : (keysL p.mapTx).filter
        (fun x => decide (x = t) || ancB (addList p.mapTx t d) x t) = [] :=
      list_filter_eq_nil (fun x hx => by
        rw [Bool.or_eq_false_iff]
        exact ⟨by simp [hktl x hx], ancB_eq_false (no_anc_addList htp hpars)⟩)
    rw [hnil]
  show removeStaged (addUnchecked p t d) (packageOf (addUnchecked p t d).mapTx t) false = p
  rw [hm, hpack]
  -- now compute the staged removal of [t]
  refine MemPool_ext ?_ ?_
  · -- the entry store is restored
    show rmList (addList p.mapTx t d) [t] false = p.mapTx
    rw [rmList, addList, List.filter_cons, if_neg (by simp)]
    rw [list_filter_eq_self (fun pr hpr => by
      obtain ⟨s, es⟩ := pr
      obtain ⟨e₀, hmem₀, _⟩ := mem_adjust.mp hpr
      have hk : s ∈ keysL p.mapTx := mem_keysL_of_mem hmem₀
      simp [hktl s hk])]
    rw [adjust_adjust]
    refine adjust_eq_self ?_
    rintro ⟨s, e₀⟩ hmem₀
    have hkeys : s ∈ keysL p.mapTx := mem_keysL_of_mem hmem₀
    have hst : s ≠ t := hktl s hkeys
    have hdl := descendantListL_addList_old hW hfind htp hpars hkeys (d := d)
    have hddl : (descendantListL (addList p.mapTx t d) s).filter
        (fun x => decide (x ∈ [t]))
        = if s ∈ newTxAncestors p.mapTx d.parents then [t] else [] := by
      rw [hdl, List.filter_append]
      have h2 : (descendantListL p.mapTx s).filter (fun x => decide (x ∈ [t])) = [] :=
        list_filter_eq_nil (fun x hx => by
          have hne : x ≠ t := hktl x (List.mem_filter.mp hx).1
          simp [hne])
      rw [h2, List.append_nil]
      by_cases hA : s ∈ newTxAncestors p.mapTx d.parents
      · rw [if_pos hA]
        simp
      · rw [if_neg hA]
        rfl
    have hsum1 : sumBy (addList p.mapTx t d) MpEntry.fee [t] = d.fee := by
      rw [sumBy_cons, findE_addList_self, sumBy_nil]
      show d.fee + 0 = d.fee
      omega
    have hsum2 : sumBy (addList p.mapTx t d) MpEntry.vsize [t] = d.vsize := by
      rw [sumBy_cons, findE_addList_self, sumBy_nil]
      show d.vsize + 0 = d.vsize
      omega
    show decEntry (addList p.mapTx t d) [t] false s
        (if s ∈ newTxAncestors p.mapTx d.parents then bumpDesc e₀ d else e₀) = e₀
    by_cases hA : s ∈ newTxAncestors p.mapTx d.parents
    · rw [if_pos hA]
      rw [if_pos hA] at hddl
      refine MpEntry_ext rfl rfl rfl rfl rfl ?_ ?_ ?_ ?_ ?_ ?_ ?_
      · show (bumpDesc e₀ d).feeWithDesc
            - sumBy (addList p.mapTx t d) MpEntry.fee
              ((descendantListL (addList p.mapTx t d) s).filter
                (fun x => decide (x ∈ [t]))) = e₀.feeWithDesc
        rw [hddl, hsum1]
        show e₀.feeWithDesc + d.fee - d.fee = e₀.feeWithDesc
        omega
      · show (bumpDesc e₀ d).sizeWithDesc
            - sumBy (addList p.mapTx t d) MpEntry.vsize
              ((descendantListL (addList p.mapTx t d) s).filter
                (fun x => decide (x ∈ [t]))) = e₀.sizeWithDesc
        rw [hddl, hsum2]
        show e₀.sizeWithDesc + d.vsize - d.vsize = e₀.sizeWithDesc
        omega
      · show (bumpDesc e₀ d).countWithDesc
            - ((descendantListL (addList p.mapTx t d) s).filter
                (fun x => decide (x ∈ [t]))).length = e₀.countWithDesc
        rw [hddl]
        show e₀.countWithDesc + 1 - 1 = e₀.countWithDesc
        omega
      · show (bumpDesc e₀ d).feeWithAnc - sumBy _ MpEntry.fee [] = e₀.feeWithAnc
        rw [sumBy_nil]
        show e₀.feeWithAnc - 0 = e₀.feeWithAnc
        omega
      · show (bumpDesc e₀ d).sizeWithAnc - sumBy _ MpEntry.vsize [] = e₀.sizeWithAnc
        rw [sumBy_nil]
        show e₀.sizeWithAnc - 0 = e₀.sizeWithAnc
        omega
      · show (bumpDesc e₀ d).countWithAnc - List.length [] = e₀.countWithAnc
        show e₀.countWithAnc - 0 = e₀.countWithAnc
        omega
      · show (bumpDesc e₀ d).sigOpWithAnc - sumBy _ MpEntry.sigOps [] = e₀.sigOpWithAnc
        rw [sumBy_nil]
        show e₀.sigOpWithAnc - 0 = e₀.sigOpWithAnc
        omega
    · rw [if_neg hA]
      rw [if_neg hA] at hddl
      refine MpEntry_ext rfl rfl rfl rfl rfl ?_ ?_ ?_ ?_ ?_ ?_ ?_
      · show e₀.feeWithDesc
            - sumBy (addList p.mapTx t d) MpEntry.fee
              ((descendantListL (addList p.mapTx t d) s).filter
                (fun x => decide (x ∈ [t]))) = e₀.feeWithDesc
        rw [hddl, sumBy_nil]
        omega
      · show e₀.sizeWithDesc
            - sumBy (addList p.mapTx t d) MpEntry.vsize
              ((descendantListL (addList p.mapTx t d) s).filter
                (fun x => decide (x ∈ [t]))) = e₀.sizeWithDesc
        rw [hddl, sumBy_nil]
        omega
      · show e₀.countWithDesc
            - ((descendantListL (addList p.mapTx t d) s).filter
                (fun x => decide (x ∈ [t]))).length = e₀.countWithDesc
        rw [hddl]
        show e₀.countWithDesc - 0 = e₀.countWithDesc
        omega
      · show e₀.feeWithAnc - sumBy _ MpEntry.fee [] = e₀.feeWithAnc
        rw [sumBy_nil]; omega
      · show e₀.sizeWithAnc - sumBy _ MpEntry.vsize [] = e₀.sizeWithAnc
        rw [sumBy_nil]; omega
      · show e₀.countWithAnc - List.length [] = e₀.countWithAnc
        show e₀.countWithAnc - 0 = e₀.countWithAnc
        omega
      · show e₀.sigOpWithAnc - sumBy _ MpEntry.sigOps [] = e₀.sigOpWithAnc
        rw [sumBy_nil]; omega
  · -- the cached total size is restored
    show p.totalTxSize + d.vsize
        - sumBy (addList p.mapTx t d) MpEntry.vsize
          ((keysL (addList p.mapTx t d)).filter (fun s => decide (s ∈ [t])))
      = p.totalTxSize
    rw [keysL_addList, List.filter_cons, if_pos (by simp),
      list_filter_eq_nil (fun x hx => by simp [hktl x hx])]
    rw [sumBy_cons, findE_addList_self, sumBy_nil]
    show p.totalTxSize + d.vsize - ((mkEntry p.mapTx d _).vsize + 0) = p.totalTxSize
    show p.totalTxSize + d.vsize - (d.vsize + 0) = p.totalTxSize
    omega

/-! ## Ancestry in chain pools -/

theorem chainPool_succ_mapTx (fee : Nat → Int) (vs so : Nat → Nat) (tm : Nat → Int)
    (n : Nat) :
    (chainPool fee vs so tm (n + 1)).mapTx
      = addList (chainPool fee vs so tm n).mapTx n (chainData fee vs so tm n) := rfl

theorem chainPool_keys_mem {fee : Nat → Int} {vs so : Nat → Nat} {tm : Nat → Int} :
    ∀ {n x : Nat}, x ∈ keysL (chainPool fee vs so tm n).mapTx ↔ x < n := by
  intro n
  induction n with
  | zero =>
      intro x
      simp [chainPool, emptyPool, keysL]
  | succ n ih =>
      intro x
      rw [chainPool_succ_mapTx, keysL_addList, List.mem_cons, ih]
      omega

theorem chainPool_keys (fee : Nat → Int) (vs so : Nat → Nat) (tm : Nat → Int) :
    ∀ n, keysL (chainPool fee vs so tm n).mapTx = (List.range n).reverse := by
  intro n
  induction n with
  | zero => rfl
  | succ n ih =>
      rw [chainPool_succ_mapTx, keysL_addList, ih, List.range_succ, List.reverse_append]
      rfl

theorem if_bump_static (c : Prop) [Decidable c] (e : MpEntry) (d : TxData) :
    (if c then bumpDesc e d else e).fee = e.fee
    ∧ (if c then bumpDesc e d else e).vsize = e.vsize
    ∧ (if c then bumpDesc e d else e).sigOps = e.sigOps
    ∧ (if c then bumpDesc e d else e).time = e.time := by
  by_cases h : c <;> simp [h, bumpDesc]

theorem chainPool_static {fee : Nat → Int} {vs so : Nat → Nat} {tm : Nat → Int} :
    ∀ {n i : Nat} {e : MpEntry}, findE (chainPool fee vs so tm n).mapTx i = some e →
      e.fee = fee i ∧ e.vsize = vs i ∧ e.sigOps = so i ∧ e.time = tm i := by
  intro n
  induction n with
  | zero => intro i e h; exact absurd h (by simp [chainPool, emptyPool, findE])
  | succ n ih =>
      intro i e h
      rw [chainPool_succ_mapTx] at h
      by_cases hi : i = n
      · subst hi
        rw [findE_addList_self] at h
        injection h with h
        subst h
        exact ⟨rfl, rfl, rfl, rfl⟩
      · rw [findE_addList_ne (fun hEq => hi hEq)] at h
        cases hf : findE (chainPool fee vs so tm n).mapTx i with
        | none => rw [hf] at h; exact Option.noConfusion h
        | some e₀ =>
            rw [hf] at h
            injection h with h
            subst h
            obtain ⟨s1, s2, s3, s4⟩ := ih hf
            obtain ⟨t1, t2, t3, t4⟩ := if_bump_static
              (i ∈ newTxAncestors (chainPool fee vs so tm n).mapTx
                (chainData fee vs so tm n).parents) e₀ (chainData fee vs so tm n)
            exact ⟨t1.trans s1, t2.trans s2, t3.trans s3, t4.trans s4⟩

theorem chainPool_anc {fee : Nat → Int} {vs so : Nat → Nat} {tm : Nat → Int} :
    ∀ {n x a : Nat}, AncL (chainPool fee vs so tm n).mapTx x a ↔ (a < x ∧ x < n) := by
  intro n
  induction n with
  | zero =>
      intro x a
      constructor
      · intro h
        exact absurd (ancL_source_mem h) (by simp [chainPool, emptyPool, keysL])
      · rintro ⟨_, h⟩
        exact absurd h (Nat.not_lt_zero x)
  | succ n ih =>
      intro x a
      obtain ⟨hfind, htp, hpars⟩ := chainPool_addOK fee vs so tm n
      have hWn : WFlist (chainPool fee vs so tm n).mapTx := (chainPool_good fee vs so tm n).1
      by_cases hx : x = n
      · subst hx
        rw [chainPool_succ_mapTx, anc_addList_self hWn hfind htp hpars,
          mem_newTxAncestors]
        cases x with
        | zero =>
            constructor
            · rintro ⟨_, q, hq, _⟩
              exact absurd hq (List.not_mem_nil q)
            · rintro ⟨h, _⟩
              exact absurd h (Nat.not_lt_zero a)
        | succ m =>
            constructor
            · rintro ⟨hak, q, hq, hres, hcase⟩
              have hqm : q = m := by
                simpa [chainData] using hq
              subst hqm
              rcases hcase with rfl | hanc
              · omega
              · have := ih.mp (reachB_sound hanc)
                omega
            · rintro ⟨h1, _⟩
              refine ⟨chainPool_keys_mem.mpr (by omega), m, ?_, ?_, ?_⟩
              · simp [chainData]
              · exact residentB_iff_mem.mpr (chainPool_keys_mem.mpr (by omega))
              · by_cases ham : a = m
                · exact Or.inl ham.symm
                · refine Or.inr ((ancB_iff hWn).mpr (ih.mpr ?_))
                  omega
      · rw [chainPool_succ_mapTx, ancL_addList_ne hWn hfind htp hpars hx, ih]
        omega

theorem chainPool_ancB {fee : Nat → Int} {vs so : Nat → Nat} {tm : Nat → Int}
    {n x a : Nat} :
    ancB (chainPool fee vs so tm n).mapTx x a = (decide (a < x) && decide (x < n)) := by
  refine bool_eq_of_iff ?_
  rw [ancB_iff (chainPool_good fee vs so tm n).1, chainPool_anc]
  simp

/-! ## Block confirmation on a three-transaction chain (C4) -/

theorem findE_rmList_mem {l : List (Nat × MpEntry)} {S : List Nat} {uD : Bool}
    {x : Nat} (hx : x ∈ S) : findE (rmList l S uD) x = none := by
  rw [rmList, findE_adjust, findE_filter_mem hx]
  rfl

theorem chainPool3_ancClosed (fee : Nat → Int) (vs so : Nat → Nat) (tm : Nat → Int) :
    AncClosed (chainPool fee vs so tm 3).mapTx [0, 1] := by
  intro x _ hxS a _ hanc
  have hlt : a < x := (chainPool_anc.mp (reachB_sound hanc)).1
  have hx01 : x = 0 ∨ x = 1 := by simpa using hxS
  have : a = 0 := by omega
  simp [this]

/-- After `removeForBlock` of the two leading links of the chain `0 → 1 → 2`,
only transaction 2 remains; it has no in-pool parent edge left, and its
ancestor aggregates have collapsed to its own quantities. -/
theorem removeForBlock_chain3 (fee : Nat → Int) (vs so : Nat → Nat) (tm : Nat → Int) :
    keysL (removeForBlock (chainPool fee vs so tm 3) [0, 1]).mapTx = [2]
    ∧ ippL (removeForBlock (chainPool fee vs so tm 3) [0, 1]).mapTx 2 = []
    ∧ ∃ e, findE (removeForBlock (chainPool fee vs so tm 3) [0, 1]).mapTx 2 = some e
        ∧ e.countWithAnc = 1 ∧ e.feeWithAnc = fee 2 ∧ e.sizeWithAnc = vs 2
        ∧ e.sigOpWithAnc = so 2 := by
  have hG := chainPool_good fee vs so tm 3
  have hW := hG.1
  have hAC := chainPool3_ancClosed fee vs so tm
  have hGr : pGood (removeForBlock (chainPool fee vs so tm 3) [0, 1]) :=
    pGood_removeStaged hG (Or.inr ⟨rfl, hAC⟩)
  have hWr : WFlist (rmList (chainPool fee vs so tm 3).mapTx [0, 1] true) := hGr.1
  have hk3 : keysL (chainPool fee vs so tm 3).mapTx = [2, 1, 0] := by
    rw [chainPool_keys]
    rfl
  have hkeys : keysL (rmList (chainPool fee vs so tm 3).mapTx [0, 1] true) = [2] := by
    rw [keysL_rmList, hk3]
    decide
  have hres2 : residentB (chainPool fee vs so tm 3).mapTx 2 = true :=
    residentB_iff_mem.mpr (by rw [hk3]; simp)
  obtain ⟨e2, he2⟩ := Option.isSome_iff_exists.mp hres2
  have hfe : findE (rmList (chainPool fee vs so tm 3).mapTx [0, 1] true) 2
      = some (decEntry (chainPool fee vs so tm 3).mapTx [0, 1] true 2 e2) := by
    rw [findE_rmList_not_mem (by decide), he2]
    rfl
  have hmem2 : (2, decEntry (chainPool fee vs so tm 3).mapTx [0, 1] true 2 e2)
      ∈ rmList (chainPool fee vs so tm 3).mapTx [0, 1] true := findE_mem hfe
  have hcons : entryConsistent (rmList (chainPool fee vs so tm 3).mapTx [0, 1] true) 2
      (decEntry (chainPool fee vs so tm 3).mapTx [0, 1] true 2 e2) :=
    hGr.2.1 _ hmem2
  have hanc2 : ancestorListL (rmList (chainPool fee vs so tm 3).mapTx [0, 1] true) 2
      = [] := by
    rw [ancestorListL, hkeys]
    refine list_filter_eq_nil (fun a ha => ?_)
    have ha2 : a = 2 := by simpa using ha
    subst ha2
    exact ancB_eq_false (ancL_irrefl hWr)
  obtain ⟨_, _, _, o4, o5, o6, o7⟩ := hcons
  rw [hanc2] at o4 o5 o6 o7
  obtain ⟨s1, s2, s3, _⟩ := chainPool_static he2
  have hpar2 : e2.parents = [1] := by
    have := (chainPool_mem (findE_mem he2)).2
    simpa [chainData] using this
  refine ⟨hkeys, ?_, decEntry (chainPool fee vs so tm 3).mapTx [0, 1] true 2 e2,
    hfe, ?_, ?_, ?_, ?_⟩
  · show ippL (rmList (chainPool fee vs so tm 3).mapTx [0, 1] true) 2 = []
    rw [ippL, hfe]
    show e2.parents.filter _ = []
    rw [hpar2]
    refine list_filter_eq_nil (fun q hq => ?_)
    have hq1 : q = 1 := by simpa using hq
    subst hq1
    rw [residentB, findE_rmList_mem (by decide)]
    rfl
  · rw [o6]
    rfl
  · rw [o4, sumBy_nil]
    show (decEntry (chainPool fee vs so tm 3).mapTx [0, 1] true 2 e2).fee + 0 = fee 2
    rw [decEntry_fee]
    omega
  · rw [o5, sumBy_nil]
    show (decEntry (chainPool fee vs so tm 3).mapTx [0, 1] true 2 e2).vsize + 0 = vs 2
    rw [decEntry_vsize]
    omega
  · rw [o7, sumBy_nil]
    show (decEntry (chainPool fee vs so tm 3).mapTx [0, 1] true 2 e2).sigOps + 0 = so 2
    rw [decEntry_sigOps]
    omega

/-! ## The bounded ancestor walk on a chain -/

theorem range_filter_lt (i : Nat) :
    ∀ n, (List.range n).filter (fun x => decide (i < x)) = (List.range n).drop (i + 1) := by
  intro n
  induction n with
  | zero => rfl
  | succ n ih =>
      rw [List.range_succ, List.filter_append, ih]
      by_cases h : i < n
      · rw [List.drop_append_of_le_length (by simpa [List.length_range] using h)]
        congr 1
        simp [h]
      · have h1 : (List.range n).drop (i + 1) = [] :=
          List.drop_eq_nil_of_le (by
            simp [List.length_range]
            omega)
        have h2 : (List.range n ++ [n]).drop (i + 1) = [] :=
          List.drop_eq_nil_of_le (by
            simp [List.length_range]
            omega)
        rw [h1, h2]
        simp [h]

theorem sumBy_chain_vsize {fee : Nat → Int} {vs so : Nat → Nat} {tm : Nat → Int}
    {n : Nat} {ts : List Nat} (hts : ∀ x ∈ ts, x < n) :
    sumBy (chainPool fee vs so tm n).mapTx MpEntry.vsize ts = (ts.map vs).sum := by
  rw [sumBy]
  congr 1
  refine List.map_congr_left (fun x hx => ?_)
  have hres : residentB (chainPool fee vs so tm n).mapTx x = true :=
    residentB_iff_mem.mpr (chainPool_keys_mem.mpr (hts x hx))
  obtain ⟨e, he⟩ := Option.isSome_iff_exists.mp hres
  rw [he]
  exact (chainPool_static he).2.1

theorem chainPool_descList {fee : Nat → Int} {vs so : Nat → Nat} {tm : Nat → Int}
    {n i : Nat} :
    descendantListL (chainPool fee vs so tm n).mapTx i
      = ((List.range n).drop (i + 1)).reverse := by
  rw [descendantListL, chainPool_keys]
  have hcong : ∀ x ∈ (List.range n).reverse,
      ancB (chainPool fee vs so tm n).mapTx x i = decide (i < x) := by
    intro x hx
    have hxn : x < n := by
      rw [List.mem_reverse, List.mem_range] at hx
      exact hx
    rw [chainPool_ancB]
    simp [hxn]
  rw [List.filter_congr hcong, List.filter_reverse, range_filter_lt]

theorem chainPool_aggregates {fee : Nat → Int} {vs so : Nat → Nat} {tm : Nat → Int}
    {n i : Nat} {e : MpEntry}
    (he : findE (chainPool fee vs so tm n).mapTx i = some e) :
    e.countWithDesc = n - i
    ∧ e.sizeWithDesc = vs i + ((((List.range n).drop (i + 1))).map vs).sum := by
  have hik : i ∈ keysL (chainPool fee vs so tm n).mapTx :=
    residentB_iff_mem.mp (by rw [residentB, he]; rfl)
  have hin : i < n := chainPool_keys_lt hik
  have hcons : entryConsistent (chainPool fee vs so tm n).mapTx i e :=
    (chainPool_good fee vs so tm n).2.1 (i, e) (findE_mem he)
  obtain ⟨_, o2, o3, _⟩ := hcons
  constructor
  · rw [o3, chainPool_descList, List.length_reverse, List.length_drop,
      List.length_range]
    omega
  · rw [o2, chainPool_descList]
    have hmem : ∀ x ∈ ((List.range n).drop (i + 1)).reverse, x < n := by
      intro x hx
      rw [List.mem_reverse] at hx
      have := List.mem_of_mem_drop hx
      rw [List.mem_range] at this
      exact this
    rw [sumBy_chain_vsize hmem, List.map_reverse, List.sum_reverse,
      (chainPool_static he).2.1]

theorem chainPool_newTxAncestors (fee : Nat → Int) (vs so : Nat → Nat) (tm : Nat → Int)
    (m : Nat) :
    newTxAncestors (chainPool fee vs so tm (m + 1)).mapTx
        (chainData fee vs so tm m).parents
      = (List.range m).reverse := by
  cases m with
  | zero =>
      rw [newTxAncestors]
      exact list_filter_eq_nil (fun x _ => by simp [chainData])
  | succ j =>
      rw [newTxAncestors, chainPool_keys]
      have hresj : residentB (chainPool fee vs so tm (j + 1 + 1)).mapTx j = true :=
        residentB_iff_mem.mpr (chainPool_keys_mem.mpr (by omega))
      have hcong : ∀ a ∈ (List.range (j + 1 + 1)).reverse,
          ((chainData fee vs so tm (j + 1)).parents.filter
            (fun q => residentB (chainPool fee vs so tm (j + 1 + 1)).mapTx q)).any
              (fun q => decide (q = a)
                || ancB (chainPool fee vs so tm (j + 1 + 1)).mapTx q a)
            = decide (a < j + 1) := by
        intro a _
        have hfilter : (chainData fee vs so tm (j + 1)).parents.filter
            (fun q => residentB (chainPool fee vs so tm (j + 1 + 1)).mapTx q) = [j] := by
          show [j].filter _ = [j]
          rw [List.filter_cons]
          rw [if_pos (by simpa using hresj)]
          rfl
        rw [hfilter, List.any_cons, List.any_nil, Bool.or_false, chainPool_ancB]
        refine bool_eq_of_iff ?_
        simp only [Bool.or_eq_true, Bool.and_eq_true, decide_eq_true_iff]
        omega
      rw [List.filter_congr hcong, List.filter_reverse]
      congr 1
      have : (List.range (j + 1 + 1)).filter (fun a => decide (a < j + 1))
          = List.range (j + 1) := by
        rw [List.range_succ, List.filter_append]
        rw [list_filter_eq_self (fun x hx => by
          have := List.mem_range.mp hx
          simp [this])]
        rw [list_filter_eq_nil (fun x hx => by
          have : x = j + 1 := by simpa using hx
          simp [this])]
        rw [List.append_nil]
      rw [this]

theorem chainPool_ancestorList_last (fee : Nat → Int) (vs so : Nat → Nat)
    (tm : Nat → Int) (m : Nat) :
    ancestorListL (chainPool fee vs so tm (m + 1)).mapTx m = (List.range m).reverse := by
  rw [ancestorListL, chainPool_keys]
  have hcong : ∀ a ∈ (List.range (m + 1)).reverse,
      ancB (chainPool fee vs so tm (m + 1)).mapTx m a = decide (a < m) := by
    intro a _
    rw [chainPool_ancB]
    simp
  rw [List.filter_congr hcong, List.filter_reverse]
  congr 1
  rw [List.range_succ, List.filter_append]
  rw [list_filter_eq_self (fun x hx => by
    have := List.mem_range.mp hx
    simp [this])]
  rw [list_filter_eq_nil (fun x hx => by
    have : x = m := by simpa using hx
    simp [this])]
  rw [List.append_nil]

theorem chainPool_resident_lt {fee : Nat → Int} {vs so : Nat → Nat} {tm : Nat → Int}
    {n a : Nat} (ha : a < n) :
    ∃ e, findE (chainPool fee vs so tm n).mapTx a = some e :=
  Option.isSome_iff_exists.mp (residentB_iff_mem.mpr (chainPool_keys_mem.mpr ha))

theorem calcAncestors_chain_iff (fee : Nat → Int) (vs so : Nat → Nat) (tm : Nat → Int)
    (m limC limS limDC limDS : Nat) :
    calcAncestors (chainPool fee vs so tm (m + 1)).mapTx m (chainData fee vs so tm m)
        limC limS limDC limDS
      = Except.ok (m :: (List.range m).reverse)
    ↔ (m + 1 ≤ limC
        ∧ (((List.range (m + 1)).map vs).sum ≤ limS)
        ∧ (∀ i < m, (m + 1 - i) + 1 ≤ limDC)
        ∧ (∀ i < m, (vs i + (((List.range (m + 1)).drop (i + 1)).map vs).sum) + vs m
            ≤ limDS)) := by
  have hA := chainPool_newTxAncestors fee vs so tm m
  have hmemrev : ∀ x ∈ (List.range m).reverse, x < m + 1 := by
    intro x hx
    rw [List.mem_reverse, List.mem_range] at hx
    omega
  have hsumA : sumBy (chainPool fee vs so tm (m + 1)).mapTx MpEntry.vsize
      ((List.range m).reverse) = ((List.range m).map vs).sum := by
    rw [sumBy_chain_vsize hmemrev, List.map_reverse, List.sum_reverse]
  have hsplit : ((List.range (m + 1)).map vs).sum = ((List.range m).map vs).sum + vs m := by
    rw [List.range_succ, List.map_append, List.sum_append]
    simp
  have hany3 : ∀ lim : Nat, (((List.range m).reverse).any (fun a =>
      decide ((match findE (chainPool fee vs so tm (m + 1)).mapTx a with
        | some e => e.countWithDesc | none => 0) + 1 > lim)) = true)
      ↔ ∃ i, i < m ∧ (m + 1 - i) + 1 > lim := by
    intro lim
    rw [List.any_eq_true]
    constructor
    · rintro ⟨a, ha, hd⟩
      rw [List.mem_reverse, List.mem_range] at ha
      obtain ⟨e, he⟩ := @chainPool_resident_lt fee vs so tm (m + 1) a (by omega)
      rw [he] at hd
      simp only [decide_eq_true_iff] at hd
      have hcd := (chainPool_aggregates he).1
      exact ⟨a, ha, by omega⟩
    · rintro ⟨i, hi, hgt⟩
      obtain ⟨e, he⟩ := @chainPool_resident_lt fee vs so tm (m + 1) i (by omega)
      refine ⟨i, by simp [List.mem_reverse, List.mem_range, hi], ?_⟩
      rw [he]
      simp only [decide_eq_true_iff]
      have hcd := (chainPool_aggregates he).1
      omega
  have hany4 : ∀ lim : Nat, (((List.range m).reverse).any (fun a =>
      decide ((match findE (chainPool fee vs so tm (m + 1)).mapTx a with
        | some e => e.sizeWithDesc | none => 0) + (chainData fee vs so tm m).vsize
          > lim)) = true)
      ↔ ∃ i, i < m ∧ (vs i + (((List.range (m + 1)).drop (i + 1)).map vs).sum) + vs m
          > lim := by
    intro lim
    rw [List.any_eq_true]
    constructor
    · rintro ⟨a, ha, hd⟩
      rw [List.mem_reverse, List.mem_range] at ha
      obtain ⟨e, he⟩ := @chainPool_resident_lt fee vs so tm (m + 1) a (by omega)
      rw [he] at hd
      simp only [decide_eq_true_iff] at hd
      have hsd := (chainPool_aggregates he).2
      rw [hsd] at hd
      exact ⟨a, ha, hd⟩
    · rintro ⟨i, hi, hgt⟩
      obtain ⟨e, he⟩ := @chainPool_resident_lt fee vs so tm (m + 1) i (by omega)
      refine ⟨i, by simp [List.mem_reverse, List.mem_range, hi], ?_⟩
      rw [he]
      simp only [decide_eq_true_iff]
      rw [(chainPool_aggregates he).2]
      exact hgt
  rw [calcAncestors, hA]
  rw [List.length_reverse, List.length_range]
  split_ifs with h1 h2 h3 h4
  · constructor
    · intro h
      exact absurd h (by simp)
    · rintro ⟨hc, _⟩
      omega
  · constructor
    · intro h
      exact absurd h (by simp)
    · rintro ⟨_, hs, _⟩
      rw [hsumA] at h2
      show False
      have : (chainData fee vs so tm m).vsize = vs m := rfl
      rw [this] at h2
      omega
  · constructor
    · intro h
      exact absurd h (by simp)
    · rintro ⟨_, _, hdc, _⟩
      obtain ⟨i, hi, hgt⟩ := (hany3 limDC).mp h3
      exact absurd (hdc i hi) (by omega)
  · constructor
    · intro h
      exact absurd h (by simp)
    · rintro ⟨_, _, _, hds⟩
      obtain ⟨i, hi, hgt⟩ := (hany4 limDS).mp h4
      exact absurd (hds i hi) (by omega)
  · constructor
    · intro _
      refine ⟨by omega, ?_, ?_, ?_⟩
      · rw [hsumA] at h2
        have : (chainData fee vs so tm m).vsize = vs m := rfl
        rw [this] at h2
        omega
      · intro i hi
        by_contra hcon
        exact h3 ((hany3 limDC).mpr ⟨i, hi, by omega⟩)
      · intro i hi
        by_contra hcon
        exact h4 ((hany4 limDS).mpr ⟨i, hi, by omega⟩)
    · intro _
      rfl

/-! ## Remaining support lemmas for the claims -/

theorem chainPool_nextAncestors (fee : Nat → Int) (vs so : Nat → Nat) (tm : Nat → Int) :
    ∀ n, newTxAncestors (chainPool fee vs so tm n).mapTx
        (chainData fee vs so tm n).parents
      = (List.range n).reverse := by
  intro n
  cases n with
  | zero =>
      rw [newTxAncestors]
      exact list_filter_eq_nil (fun x _ => by simp [chainData])
  | succ m =>
      rw [newTxAncestors, chainPool_keys]
      have hresm : residentB (chainPool fee vs so tm (m + 1)).mapTx m = true :=
        residentB_iff_mem.mpr (chainPool_keys_mem.mpr (by omega))
      have hcong : ∀ a ∈ (List.range (m + 1)).reverse,
          ((chainData fee vs so tm (m + 1)).parents.filter
            (fun q => residentB (chainPool fee vs so tm (m + 1)).mapTx q)).any
              (fun q => decide (q = a)
                || ancB (chainPool fee vs so tm (m + 1)).mapTx q a)
            = true := by
        intro a ha
        have ham : a < m + 1 := by
          rw [List.mem_reverse, List.mem_range] at ha
          exact ha
        have hfilter : (chainData fee vs so tm (m + 1)).parents.filter
            (fun q => residentB (chainPool fee vs so tm (m + 1)).mapTx q) = [m] := by
          show [m].filter _ = [m]
          rw [List.filter_cons, if_pos (by simpa using hresm)]
          rfl
        rw [hfilter, List.any_cons, List.any_nil, Bool.or_false, chainPool_ancB]
        simp only [Bool.or_eq_true, Bool.and_eq_true, decide_eq_true_iff]
        omega
      rw [List.filter_congr hcong]
      exact list_filter_eq_self (fun x _ => rfl)

theorem chainPool_length (fee : Nat → Int) (vs so : Nat → Nat) (tm : Nat → Int)
    (n : Nat) : (chainPool fee vs so tm n).mapTx.length = n := by
  have h1 : keysL (chainPool fee vs so tm n).mapTx = (List.range n).reverse :=
    chainPool_keys fee vs so tm n
  have := congrArg List.length h1
  rw [keysL, List.length_map, List.length_reverse, List.length_range] at this
  exact this

theorem calcAncestors_next_tooMany (fee : Nat → Int) (vs so : Nat → Nat)
    (tm : Nat → Int) (n limC limS limDC limDS : Nat) (h : limC < n + 1) :
    calcAncestors (chainPool fee vs so tm n).mapTx n (chainData fee vs so tm n)
        limC limS limDC limDS
      = Except.error "too many unconfirmed ancestors" := by
  rw [calcAncestors, chainPool_nextAncestors, List.length_reverse, List.length_range,
    if_pos (by omega)]

theorem addWithLimits_of_error {p : MemPool} {t : Nat} {d : TxData}
    {c s dc ds : Nat} {msg : String}
    (h : calcAncestors p.mapTx t d c s dc ds = Except.error msg) :
    addWithLimits p t d c s dc ds = (p, false, msg) := by
  rw [addWithLimits, h]

theorem calcAncestors_ok_shape {l : List (Nat × MpEntry)} {t : Nat} {d : TxData}
    {limC limS limDC limDS : Nat} {v : List Nat}
    (h : calcAncestors l t d limC limS limDC limDS = Except.ok v) :
    v = t :: newTxAncestors l d.parents := by
  rw [calcAncestors] at h
  split_ifs at h
  injection h with h
  exact h.symm

theorem ancestorListL_eq_newTx {l : List (Nat × MpEntry)} {t : Nat} {e : MpEntry}
    (hW : WFlist l) (he : findE l t = some e) :
    newTxAncestors l e.parents = ancestorListL l t := by
  rw [newTxAncestors, ancestorListL]
  refine List.filter_congr (fun a ha => bool_eq_of_iff ?_)
  rw [ancB_iff hW]
  simp only [List.any_eq_true, List.mem_filter, Bool.or_eq_true, decide_eq_true_iff]
  constructor
  · rintro ⟨q, ⟨hqp, hqr⟩, hc⟩
    have hq : q ∈ ippL l t := mem_ippL.mpr ⟨e, he, hqp, hqr⟩
    rcases hc with rfl | hanc
    · exact Relation.TransGen.single hq
    · exact Relation.TransGen.head hq ((ancB_iff hW).mp hanc)
  · intro h
    obtain ⟨q, hq, hc⟩ := ancL_head_cases h
    obtain ⟨e2, hfind2, hqp, hqr⟩ := mem_ippL.mp hq
    rw [he] at hfind2
    injection hfind2 with hfind2
    subst hfind2
    rcases hc with rfl | hanc
    · exact ⟨q, ⟨hqp, hqr⟩, Or.inl rfl⟩
    · exact ⟨q, ⟨hqp, hqr⟩, Or.inr ((ancB_iff hW).mpr hanc)⟩

/-! ## The claims -/

/-- C1: in every pool state reachable by the legal operations (`addUnchecked`,
`removeRecursive`, `removeForBlock`, `RemoveStaged`, `TrimToSize`, `Expire`),
every resident entry's cached `feeWithDescendants` equals its own fee plus the
sum of the fees of all its in-pool descendants, the analogous equalities hold
for size and count, and symmetrically the `WithAncestors` aggregates (fee,
size, count and sig-op cost, counting the entry itself) equal the self
quantity plus the sum over all in-pool ancestors. -/
theorem C1_cached_aggregates_exact {p : MemPool} (hp : Reachable p) :
    ∀ pr ∈ p.mapTx, entryConsistent p.mapTx pr.1 pr.2 :=
  (pGood_reachable hp).2.1

/-- Witness for C1: the concrete two-transaction chain pool is reachable and
all of its cached aggregates are exact. -/
theorem C1_witness : Consistent (wPool 2) := fun pr hpr =>
  C1_cached_aggregates_exact (chainPool_reachable wFee wVs wSo wTm 2) pr hpr

/-- C2: the entry store gives unique lookup by txid plus five live sort
orders (descendant score, entry time, mining score, ancestor score,
ancestor-score-or-gas-price), each view being a permutation of the store
sorted under its comparator with ties broken by txid; the mining-score
comparison is a strict total order on entries with distinct txids (and
resident txids are distinct), whereas the descendant-score, entry-time,
ancestor-score and gas-price comparator keys admit ties between distinct
txids, making those four orders non-unique. -/
theorem C2_indexed_store :
    (∀ l : List (Nat × MpEntry), WFlist l →
      ∀ (t : Nat) (e : MpEntry), ((t, e) ∈ l ↔ findE l t = some e))
    ∧ (∀ l : List (Nat × MpEntry), WFlist l → (keysL l).Nodup)
    ∧ (∀ l, (viewDescendantScore l).Perm l
        ∧ List.Sorted (keyLex (fun _ e => descScore e)) (viewDescendantScore l))
    ∧ (∀ l, (viewEntryTime l).Perm l
        ∧ List.Sorted (keyLex (fun _ e => e.time)) (viewEntryTime l))
    ∧ (∀ (δ : Nat → Int) (l : List (Nat × MpEntry)), (viewMiningScore δ l).Perm l
        ∧ List.Sorted (keyLex (miningScoreKey δ)) (viewMiningScore δ l))
    ∧ (∀ l, (viewAncestorScore l).Perm l
        ∧ List.Sorted (keyLex (fun _ e => ancScoreKey e)) (viewAncestorScore l))
    ∧ (∀ (ic : Nat → Bool) (gp : Nat → ℚ) (l : List (Nat × MpEntry)),
        (viewAncScoreOrGas ic gp l).Perm l
        ∧ List.Sorted (keyLex (gasKey ic gp)) (viewAncScoreOrGas ic gp l))
    ∧ (∀ (δ : Nat → Int) (a b : Nat × MpEntry), a.1 ≠ b.1 →
        (miningLt δ a b ∨ miningLt δ b a) ∧ ¬(miningLt δ a b ∧ miningLt δ b a))
    ∧ (∀ (δ : Nat → Int) (a b c : Nat × MpEntry),
        miningLt δ a b → miningLt δ b c → miningLt δ a c)
    ∧ (∃ a b : Nat × MpEntry, a.1 ≠ b.1 ∧ descScore a.2 = descScore b.2
        ∧ a.2.time = b.2.time ∧ ancScoreKey a.2 = ancScoreKey b.2
        ∧ gasKey (fun _ => false) (fun _ => 0) a.1 a.2
            = gasKey (fun _ => false) (fun _ => 0) b.1 b.2) := by
  refine ⟨?_, ?_, ?_, ?_, ?_, ?_, ?_, ?_, ?_, ?_⟩
  · intro l hW t e
    exact ⟨fun h => findE_of_mem_nodup hW.nodupKeys h, fun h => findE_mem h⟩
  · intro l hW
    exact hW.nodupKeys
  · intro l
    exact ⟨List.perm_insertionSort _ l, List.sorted_insertionSort _ l⟩
  · intro l
    exact ⟨List.perm_insertionSort _ l, List.sorted_insertionSort _ l⟩
  · intro δ l
    exact ⟨List.perm_insertionSort _ l, List.sorted_insertionSort _ l⟩
  · intro l
    exact ⟨List.perm_insertionSort _ l, List.sorted_insertionSort _ l⟩
  · intro ic gp l
    exact ⟨List.perm_insertionSort _ l, List.sorted_insertionSort _ l⟩
  · intro δ a b hne
    constructor
    · rcases lt_trichotomy (miningScoreKey δ a.1 a.2) (miningScoreKey δ b.1 b.2)
        with h | h | h
      · exact Or.inl (Or.inl h)
      · rcases Nat.lt_or_gt_of_ne hne with h2 | h2
        · exact Or.inl (Or.inr ⟨h, h2⟩)
        · exact Or.inr (Or.inr ⟨h.symm, h2⟩)
      · exact Or.inr (Or.inl h)
    · rintro ⟨h1 | ⟨e1, l1⟩, h2 | ⟨e2, l2⟩⟩
      · exact absurd h2 (lt_asymm h1)
      · exact absurd (e2 ▸ h1) (lt_irrefl _)
      · exact absurd (e1 ▸ h2) (lt_irrefl _)
      · exact absurd l2 (Nat.lt_asymm l1)
  · intro δ a b c hab hbc
    rcases hab with h1 | ⟨e1, l1⟩
    · rcases hbc with h2 | ⟨e2, _⟩
      · exact Or.inl (h1.trans h2)
      · exact Or.inl (e2 ▸ h1)
    · rcases hbc with h2 | ⟨e2, l2⟩
      · exact Or.inl (e1 ▸ h2)
      · exact Or.inr ⟨e1.trans e2, Nat.lt_trans l1 l2⟩
  · exact ⟨(0, witEntry), (1, witEntry), by decide, rfl, rfl, rfl, rfl⟩

/-- Witness for C2: unique lookup on a concrete one-entry store. -/
theorem C2_witness : ((3, witEntry) ∈ [(3, witEntry)]
    ↔ findE [(3, witEntry)] 3 = some witEntry) :=
  C2_indexed_store.1 [(3, witEntry)] (by decide) 3 witEntry

/-- C3: when the bounded ancestor calculation fails on a limit, the add path
returns `false` together with the reason string and the pool is exactly the
pool it started from (no entry, aggregate, edge or index changed); in
particular, for a chain of 26 transactions with `limitAncestorCount = 25`,
adding the 26th fails with "too many unconfirmed ancestors" and the pool
keeps its 25 entries untouched. -/
theorem C3_limit_failure_no_mutation :
    (∀ (p : MemPool) (t : Nat) (d : TxData) (c s dc ds : Nat) (msg : String),
      calcAncestors p.mapTx t d c s dc ds = Except.error msg →
      addWithLimits p t d c s dc ds = (p, false, msg))
    ∧ (∀ (fee : Nat → Int) (vs so : Nat → Nat) (tm : Nat → Int) (s dc ds : Nat),
        addWithLimits (chainPool fee vs so tm 25) 25 (chainData fee vs so tm 25)
            25 s dc ds
          = (chainPool fee vs so tm 25, false, "too many unconfirmed ancestors")
        ∧ (chainPool fee vs so tm 25).mapTx.length = 25) := by
  refine ⟨fun p t d c s dc ds msg h => addWithLimits_of_error h, ?_⟩
  intro fee vs so tm s dc ds
  exact ⟨addWithLimits_of_error
      (calcAncestors_next_tooMany fee vs so tm 25 25 s dc ds (by omega)),
    chainPool_length fee vs so tm 25⟩

/-- Witness for C3: the concrete 26th chain transaction is refused at
ancestor limit 25 and the 25-entry pool is returned unchanged. -/
theorem C3_witness :
    addWithLimits (wPool 25) 25 (chainData wFee wVs wSo wTm 25) 25 9 9 9
      = (wPool 25, false, "too many unconfirmed ancestors")
    ∧ (wPool 25).mapTx.length = 25 :=
  C3_limit_failure_no_mutation.2 wFee wVs wSo wTm 9 9 9

/-- C4: for the in-pool chain `0 → 1 → 2`, `removeForBlock [0, 1]` removes
exactly transactions 0 and 1; transaction 2 stays resident with
`countWithAncestors = 1`, `feeWithAncestors` equal to its own fee (its
ancestor aggregates were reduced by each departing ancestor's self
quantities; size and sig-op cost likewise collapse to the self quantities)
and no remaining in-pool parent edge to 0 or 1. -/
theorem C4_block_removal_chain (fee : Nat → Int) (vs so : Nat → Nat) (tm : Nat → Int) :
    keysL (removeForBlock (chainPool fee vs so tm 3) [0, 1]).mapTx = [2]
    ∧ ippL (removeForBlock (chainPool fee vs so tm 3) [0, 1]).mapTx 2 = []
    ∧ ∃ e, findE (removeForBlock (chainPool fee vs so tm 3) [0, 1]).mapTx 2 = some e
        ∧ e.countWithAnc = 1 ∧ e.feeWithAnc = fee 2 ∧ e.sizeWithAnc = vs 2
        ∧ e.sigOpWithAnc = so 2 :=
  removeForBlock_chain3 fee vs so tm

/-- C5: adding a transaction that is not yet resident (and, as for every
legal add, is not an orphan parent of a resident transaction) and then
immediately removing the same txid recursively yields a pool equal to the
pre-add pool: entry store, all cached aggregates, derived edges and outpoint
claims, `totalTxSize`, and hence also all five derived sort views. -/
theorem C5_add_remove_identity {p : MemPool} {t : Nat} {d : TxData}
    (hW : WFlist p.mapTx) (hOK : addOK p t d) :
    removeRecursive (addUnchecked p t d) t = p :=
  add_remove_id hW hOK

/-- Witness for C5: a concrete fresh transaction added on top of the
two-transaction chain pool and removed again restores the pool. -/
theorem C5_witness : removeRecursive (addUnchecked (wPool 2) 5 wData) 5 = wPool 2 :=
  C5_add_remove_identity (by decide) (by decide)

/-- C6: `GetMinFee` returns the rolling minimum fee rate decayed
exponentially with half-life `ROLLING_FEE_HALFLIFE = 43200` seconds — after
`k` half-lives the rate `r` has become `r / 2^k`, one further half-life
halves it again — snapping to 0 once the decayed value drops below half the
incremental relay fee; queried exactly 12 hours (one half-life) after the
last bump it returns exactly half of the bump value. -/
theorem C6_rolling_fee_decay :
    ROLLING_FEE_HALFLIFE = 43200
    ∧ (∀ r : ℚ, decayedRate r 0 = r)
    ∧ (∀ (r : ℚ) (k : Nat), decayedRate r (k + 1) = decayedRate r k / 2)
    ∧ (∀ (r : ℚ) (k : Nat) (inc : ℚ),
        decayedRate r k < inc / 2 → getMinFee r k inc = 0)
    ∧ (∀ (r : ℚ) (k : Nat) (inc : ℚ),
        ¬ decayedRate r k < inc / 2 → getMinFee r k inc = decayedRate r k)
    ∧ (∀ bump inc : ℚ, 0 ≤ inc → inc ≤ bump → getMinFee bump 1 inc = bump / 2) := by
  refine ⟨rfl, ?_, ?_, ?_, ?_, ?_⟩
  · intro r
    simp [decayedRate]
  · intro r k
    rw [decayedRate, decayedRate, pow_succ, div_div]
  · intro r k inc h
    rw [getMinFee, if_pos h]
  · intro r k inc h
    rw [getMinFee, if_neg h]
  · intro bump inc h0 hle
    have hd : decayedRate bump 1 = bump / 2 := by
      rw [decayedRate, pow_one]
    rw [getMinFee, hd, if_neg (by linarith)]

/-- Witness for C6: a concrete bump of 10 with incremental relay fee 2,
queried one half-life later, returns 5. -/
theorem C6_witness : getMinFee 10 1 2 = 10 / 2 :=
  C6_rolling_fee_decay.2.2.2.2.2 10 2 (by norm_num) (by norm_num)

/-- C7 counterexample: on the two-transaction chain the last transaction has
exactly one in-pool ancestor, and the claim says the walk succeeds when
`limitAncestorCount` equals that true ancestor count; the code instead fails
there with "too many unconfirmed ancestors", because the walk counts the
queried transaction itself. -/
theorem C7_counterexample :
    (ancestorListL (wPool 2).mapTx 1).length = 1
    ∧ calcAncestors (wPool 2).mapTx 1 (chainData wFee wVs wSo wTm 1)
        1 1000000 1000000 1000000
      = Except.error "too many unconfirmed ancestors" := by
  exact ⟨by decide, by decide⟩

/-- C7 (amended): for a chain of `m + 1` transactions, the last transaction
has `m` true in-pool ancestors; `CalculateMemPoolAncestors` on it succeeds
exactly when `limitAncestorCount` is at least `m + 1` — the true ancestor
count plus one, since the walk counts the queried transaction itself — and
the other three limits accommodate the chain (ancestor size, and every
ancestor's descendant count and size counting the queried transaction as a
hypothetical new descendant); failure occurs exactly when one of the four
limits is exceeded.  With `limitAncestorCount` equal to the true ancestor
count `m` it always fails with the descriptive reason
"too many unconfirmed ancestors". -/
theorem C7_chain_limits (fee : Nat → Int) (vs so : Nat → Nat) (tm : Nat → Int)
    (m limC limS limDC limDS : Nat) :
    ((ancestorListL (chainPool fee vs so tm (m + 1)).mapTx m).length = m)
    ∧ (calcAncestors (chainPool fee vs so tm (m + 1)).mapTx m
          (chainData fee vs so tm m) limC limS limDC limDS
        = Except.ok (m :: (List.range m).reverse)
       ↔ (m + 1 ≤ limC
          ∧ (((List.range (m + 1)).map vs).sum ≤ limS)
          ∧ (∀ i < m, (m + 1 - i) + 1 ≤ limDC)
          ∧ (∀ i < m, (vs i + (((List.range (m + 1)).drop (i + 1)).map vs).sum) + vs m
              ≤ limDS)))
    ∧ calcAncestors (chainPool fee vs so tm (m + 1)).mapTx m
          (chainData fee vs so tm m) m limS limDC limDS
        = Except.error "too many unconfirmed ancestors" := by
  refine ⟨?_, calcAncestors_chain_iff fee vs so tm m limC limS limDC limDS, ?_⟩
  · rw [chainPool_ancestorList_last, List.length_reverse, List.length_range]
  · rw [calcAncestors, chainPool_newTxAncestors, List.length_reverse,
      List.length_range, if_pos (by omega)]

/-- Witness for C7 (amended): on the concrete two-transaction chain the call
succeeds at limit 2 (one true ancestor plus the transaction itself). -/
theorem C7_witness :
    calcAncestors (wPool 2).mapTx 1 (chainData wFee wVs wSo wTm 1)
        2 1000000 1000000 1000000
      = Except.ok [1, 0] :=
  (C7_chain_limits wFee wVs wSo wTm 1 2 1000000 1000000 1000000).2.1.mpr (by decide)

/-- C8: in every reachable pool state the cached `totalTxSize` scalar equals
the sum of the virtual sizes of all resident entries, and `GetTotalTxSize`
returns exactly this value. -/
theorem C8_total_size_exact {p : MemPool} (hp : Reachable p) :
    GetTotalTxSize p = (p.mapTx.map (fun pr => pr.2.vsize)).sum
    ∧ p.totalTxSize = (p.mapTx.map (fun pr => pr.2.vsize)).sum := by
  have h := (pGood_reachable hp).2.2
  exact ⟨h, h⟩

/-- Witness for C8 at the concrete two-transaction chain pool. -/
theorem C8_witness :
    GetTotalTxSize (wPool 2) = ((wPool 2).mapTx.map (fun pr => pr.2.vsize)).sum
    ∧ (wPool 2).totalTxSize = ((wPool 2).mapTx.map (fun pr => pr.2.vsize)).sum :=
  C8_total_size_exact (chainPool_reachable wFee wVs wSo wTm 2)

/-- C9: `TransactionWithinChainLimit` returns `true` for every txid that is
not resident, whatever the chain limit: it can return `false` only for a
transaction that is in the mempool and whose chain exceeds the limit. -/
theorem C9_nonresident_within_limit (p : MemPool) (txid chainLimit : Nat)
    (h : findE p.mapTx txid = none) :
    TransactionWithinChainLimit p txid chainLimit = true := by
  rw [TransactionWithinChainLimit, h]

/-- Witness for C9: an absent txid is within even the zero chain limit. -/
theorem C9_witness : TransactionWithinChainLimit (wPool 2) 7 0 = true :=
  C9_nonresident_within_limit (wPool 2) 7 0 (by decide)

/-- C10: the ancestor set returned by a successful
`CalculateMemPoolAncestors` call on a resident transaction includes the
queried transaction itself, so its cardinality is the in-pool ancestor count
plus one — even though the spec's glossary defines an ancestor as a
transaction the subject depends on, excluding self. -/
theorem C10_ancestors_include_self {l : List (Nat × MpEntry)} {t : Nat}
    {d : TxData} {e : MpEntry} {limC limS limDC limDS : Nat} {v : List Nat}
    (hW : WFlist l) (he : findE l t = some e) (hpar : d.parents = e.parents)
    (hok : calcAncestors l t d limC limS limDC limDS = Except.ok v) :
    v = t :: ancestorListL l t ∧ t ∈ v
    ∧ v.length = (ancestorListL l t).length + 1 := by
  have hshape := calcAncestors_ok_shape hok
  rw [hpar, ancestorListL_eq_newTx hW he] at hshape
  refine ⟨hshape, ?_, ?_⟩
  · rw [hshape]
    exact List.mem_cons_self t _
  · rw [hshape, List.length_cons]

/-- Witness for C10: the successful concrete call of `C7_witness` returns the
queried transaction together with its single ancestor. -/
theorem C10_witness :
    ([1, 0] : List Nat) = 1 :: ancestorListL (wPool 2).mapTx 1
    ∧ (1 : Nat) ∈ [1, 0]
    ∧ ([1, 0] : List Nat).length = (ancestorListL (wPool 2).mapTx 1).length + 1 :=
  @C10_ancestors_include_self (wPool 2).mapTx 1 (chainData wFee wVs wSo wTm 1)
    { fee := 1, vsize := 1, sigOps := 0, time := 0, parents := [0]
      feeWithDesc := 1, sizeWithDesc := 1, countWithDesc := 1
      feeWithAnc := 2, sizeWithAnc := 2, countWithAnc := 2
      sigOpWithAnc := 0 }
    2 1000000 1000000 1000000 [1, 0]
    (by decide) (by decide) (by decide) (by decide)

end SBTC
